import Mathlib

/-!
Verification of the static dependency-analysis core of the `code_documentor`
backend (`app/parsers/dependency_analyzer.py`, `app/parsers/python_parser.py`,
`app/services/analysis_service.py`) against its specification.

Python strings, dicts and lists are embedded as `String`,
insertion-ordered association lists and `List`.  Python `set`s expose no
portable iteration order (string hashing is seed-randomised), so functions
that iterate a set take the iteration order as an explicit list parameter,
constrained in the theorems to enumerate the set's members.

String primitives (`split`, `startswith`, `<`) are re-implemented over
`String.data` so that concrete instances reduce inside the kernel; each
matches the CPython semantics of the operation it models (splitting on every
separator occurrence keeping empties, code-point-wise lexicographic order).
-/

/-! ## String primitives -/

/-- Models Python `str.split(sep)` for a one-character separator: splits on
every occurrence, keeping empty pieces. -/
def splitOnChar (c : Char) : List Char → List (List Char)
  | [] => [[]]
  | x :: xs =>
    let r := splitOnChar c xs
    if x = c then [] :: r
    else
      match r with
      | [] => [[x]]
      | y :: ys => (x :: y) :: ys

/-- `s.split("/")`. -/
def splitSlash (s : String) : List String :=
  (splitOnChar '/' s.data).map (fun l => String.mk l)

/-- Models Python `s.startswith(".")`. -/
def headIsDot (s : String) : Bool :=
  match s.data with
  | c :: _ => c = '.'
  | [] => false

/-- Number of leading slashes, distinguishing 0, 1 and exactly 2 the way
`posixpath.normpath` does (three or more leading slashes count as 1). -/
def leadingSlashes (s : String) : Nat :=
  if s.data.take 1 = ['/'] then
    if s.data.take 2 = ['/', '/'] ∧ s.data.take 3 ≠ ['/', '/', '/'] then 2 else 1
  else 0

/-- Code-point-wise lexicographic strict order on character lists: the order
CPython uses to compare `str` values. -/
def lexLt : List Char → List Char → Bool
  | [], [] => false
  | [], _ :: _ => true
  | _ :: _, [] => false
  | a :: as, b :: bs =>
    if a.toNat < b.toNat then true
    else if a.toNat = b.toNat then lexLt as bs else false

/-- Python `a <= b` on strings, as a relation usable by `List.insertionSort`. -/
def str_le (a b : String) : Prop := lexLt b.data a.data = false

instance : DecidableRel str_le := fun a b =>
  inferInstanceAs (Decidable (lexLt b.data a.data = false))

/-- Python `"/".join(parts)`. -/
def joinSlash : List String → String
  | [] => ""
  | [s] => s
  | s :: rest => s ++ "/" ++ joinSlash rest

/-- Models Python `s.replace("\x5c", "/")` (the separator fix-up in
`_resolve_relative_import`); on POSIX the argument never contains a
backslash, which the theorems record as a hypothesis. -/
def replaceBackslash (s : String) : String :=
  String.mk (s.data.map (fun ch => if ch = '\\' then '/' else ch))

/-- Python `"." * level`. -/
def dots (level : Nat) : String :=
  String.mk (List.replicate level '.')

/-- Python `key in assoc_dict` (membership among the keys). -/
def containsKey {α : Type} (m : List (String × α)) (k : String) : Bool :=
  m.any (fun kv => kv.1 == k)

/-! ## Data model (`app/models.py`) -/

/-- `CodeElement`: one declared construct (function, class or method). -/
structure CodeElement where
  type : String
  name : String
  start_line : Nat
  end_line : Nat
  docstring : Option String := none
  parameters : List String := []
  return_type : Option String := none
  base_classes : List String := []
deriving DecidableEq, Repr

/-- `FileNode`: one parsed file, keyed by its slash-normalised relative
path in the analysis map. -/
structure FileNode where
  path : String
  language : String
  size : Nat
  elements : List CodeElement := []
  imports : List String := []
deriving DecidableEq, Repr

/-- `DependencyInfo`: per-file dependency counters. -/
structure DependencyInfo where
  path : String
  imported_by_count : Nat
  imports_count : Nat
deriving DecidableEq, Repr

/-- `CircularDependency`: one detected cycle (its member paths). -/
structure CircularDependency where
  nodes : List String
deriving DecidableEq, Repr

/-- `DependencyAnalysis`: the summary `analyze_dependencies` returns. -/
structure DependencyAnalysis where
  most_imported : List DependencyInfo
  most_importing : List DependencyInfo
  isolated_files : List String
  circular_dependencies : List CircularDependency
deriving DecidableEq, Repr

/-- The adjacency structure `build_dependency_graph` produces: a Python dict
(`defaultdict(list)`) embedded as an insertion-ordered association list. -/
abbrev Graph := List (String × List String)

/-! ## `os.path.normpath` and `pathlib` fragments -/

/-- The component loop of `posixpath.normpath`: drop `""` and `"."`,
resolve `".."` against the accumulated components. -/
def normpathComps (initialSlashes : Bool) (comps : List String) : List String :=
  comps.foldl
    (fun newComps comp =>
      if comp = "" ∨ comp = "." then newComps
      else if comp ≠ ".." ∨ (¬ initialSlashes ∧ newComps = []) ∨
          (newComps ≠ [] ∧ newComps.getLast? = some "..") then
        newComps ++ [comp]
      else if newComps ≠ [] then newComps.dropLast
      else newComps)
    []

/-- Models `os.path.normpath` on POSIX: collapse `.`, `..`, and repeated
separators; empty input and fully-collapsed input give `"."`. -/
def normpath (path : String) : String :=
  if path = "" then "."
  else
    let slashes := leadingSlashes path
    let newComps := normpathComps (slashes ≠ 0) (splitSlash path)
    let result := String.mk (List.replicate slashes '/') ++ joinSlash newComps
    if result = "" then "." else result

/-- Models `Path(p).parent` for the repo-relative, slash-separated paths the
analyzer stores as keys: `pathlib` parses `p` into parts (dropping `""` and
`"."` components), the parent drops the last part, and an empty relative
path renders as `"."`. -/
def parentDir (p : String) : String :=
  let parts := (splitSlash p).filter (fun c => !(c == "" || c == "."))
  match parts.dropLast with
  | [] => "."
  | ps => joinSlash ps

/-! ## `_resolve_relative_import` (dependency_analyzer.py, lines 10–27) -/

/-- The `extensions_to_try` list, verbatim. -/
def extensions_to_try : List String :=
  ["", ".py", ".js", ".ts", ".jsx", ".tsx",
   "/__init__.py", "/index.js", "/index.ts"]

/-- `_resolve_relative_import(import_path, current_file, all_files)`.
`Path(current_file.path).parent / import_path` followed by
`os.path.normpath` is embedded as `normpath (parentDir … ++ "/" ++ …)`:
for a specifier that does not start with `/` (every call site passes a
`.`-leading specifier), `pathlib`'s join only drops `"."`/empty components,
which the subsequent `normpath` collapses anyway. -/
def _resolve_relative_import (import_path : String) (current_file : FileNode)
    (all_files : List (String × FileNode)) : Option String :=
  let resolved_path_str := normpath (parentDir current_file.path ++ "/" ++ import_path)
  if containsKey all_files resolved_path_str then
    some resolved_path_str
  else
    (extensions_to_try.map (fun ext => replaceBackslash (resolved_path_str ++ ext))).find?
      (fun p => containsKey all_files p)

/-! ## `build_dependency_graph` (dependency_analyzer.py, lines 30–41) -/

/-- Models `graph[file_path].append(resolved)` on a `defaultdict(list)`:
append to the entry if the key exists, otherwise insert the key at the end
with the one-element list. -/
def dd_append (g : Graph) (k : String) (v : String) : Graph :=
  match g with
  | [] => [(k, [v])]
  | (k', vs) :: rest =>
    if k' = k then (k', vs ++ [v]) :: rest else (k', vs) :: dd_append rest k v

/-- The loop body of `build_dependency_graph` for one import specifier:
`continue` unless it starts with `"."`, then resolve, then
`if resolved and resolved in all_files: graph[file_path].append(resolved)`
(`resolved ≠ ""` is the truthiness test on the returned string). -/
def process_import (all_files : List (String × FileNode)) (file_path : String)
    (file_node : FileNode) (graph : Graph) (import_path : String) : Graph :=
  if headIsDot import_path then
    match _resolve_relative_import import_path file_node all_files with
    | some resolved =>
      if resolved ≠ "" ∧ containsKey all_files resolved then
        dd_append graph file_path resolved
      else graph
    | none => graph
  else graph

/-- The outer loop body of `build_dependency_graph` for one
`(file_path, file_node)` item of `all_files`. -/
def process_file (all_files : List (String × FileNode)) (graph : Graph)
    (kv : String × FileNode) : Graph :=
  kv.2.imports.foldl (process_import all_files kv.1 kv.2) graph

/-- `build_dependency_graph(all_files)`: iterate `all_files.items()` in
insertion order, collecting resolved relative imports into a
`defaultdict(list)`. -/
def build_dependency_graph (all_files : List (String × FileNode)) : Graph :=
  all_files.foldl (process_file all_files) []

/-- The edge list §4.3 prescribes for one file: the successful resolutions
of its lexically-relative import specifiers, in source order, duplicates
kept, unresolved specifiers dropped. -/
def resolved_edges (file_node : FileNode) (all_files : List (String × FileNode)) :
    List String :=
  file_node.imports.filterMap
    (fun import_path =>
      if headIsDot import_path then
        _resolve_relative_import import_path file_node all_files
      else none)

/-! ## `find_circular_dependencies` (dependency_analyzer.py, lines 85–137)

The DFS mutates three structures: a `visited` set, the ordered
`recursion_stack`, and the `all_cycles` set of sorted tuples.  Sets are
embedded as insertion-ordered duplicate-free lists (`set_add`); the
theorems rely only on membership and count, never on a set's iteration
order.  The dict accesses (`graph.get(node, [])`, `graph.keys()`) are
threaded through `dict_get` so that the frame property — the graph is
never written — is a statement about the embedding, not an artefact of
purity. -/

/-- Models Python `dict.get(key, default)`: returns the value (or the
default) and leaves the dictionary untouched — unlike indexing a
`defaultdict`, which inserts the missing key. -/
def dict_get (g : Graph) (k : String) (d : List String) : List String × Graph :=
  ((List.lookup k g).getD d, g)

/-- The value of `graph.get(k, [])`: a file's outgoing edge list, empty
for an absent key. -/
def lookupD (g : Graph) (k : String) : List String :=
  (dict_get g k []).1

/-- Models `set.add` on a set represented by its insertion-ordered list of
distinct elements. -/
def set_add (s : List String) (x : String) : List String :=
  if s.contains x then s else s ++ [x]

/-- `set.add` for the set of cycles (sorted tuples of member paths). -/
def set_add_cycle (s : List (List String)) (x : List String) : List (List String) :=
  if s.contains x then s else s ++ [x]

/-- Python `sorted` on strings: stable ascending by code-point order. -/
def sort_strings (l : List String) : List String :=
  List.insertionSort str_le l

/-- The mutable state of `_find_cycles_dfs`. -/
structure DfsState where
  visited : List String
  recursion_stack : List String
  all_cycles : List (List String)
deriving DecidableEq, Repr

/-- `_find_cycles_dfs(node, graph, visited, recursion_stack, all_cycles)`.
The fuel argument bounds the recursion depth; every recursive call is on a
node not yet visited, so any fuel larger than the number of distinct nodes
is never exhausted.  The `try/except ValueError` around
`recursion_stack.index(neighbor)` cannot fire (membership was just
checked), so the index is taken directly. -/
def _find_cycles_dfs : Nat → Graph → String → DfsState → DfsState × Graph
  | 0, g, _, st => (st, g)
  | fuel + 1, g, node, st =>
    let st := { st with visited := set_add st.visited node,
                        recursion_stack := st.recursion_stack ++ [node] }
    let (neighbors, g) := dict_get g node []
    let (st, g) := neighbors.foldl
      (fun (p : DfsState × Graph) neighbor =>
        let (st, g) := p
        if st.visited.contains neighbor = false then
          _find_cycles_dfs fuel g neighbor st
        else if st.recursion_stack.contains neighbor then
          let start_index := st.recursion_stack.indexOf neighbor
          let cycle := sort_strings (st.recursion_stack.drop start_index)
          ({ st with all_cycles := set_add_cycle st.all_cycles cycle }, g)
        else (st, g))
      (st, g)
    ({ st with recursion_stack := st.recursion_stack.dropLast }, g)

/-- `find_circular_dependencies(graph)`, returning the final graph state
alongside the result.  The cycle list materialises the `all_cycles` set in
the model's insertion order (the theorems below only use it at a
one-element set, where every iteration order agrees). -/
def find_circular_dependencies_st (graph : Graph) : List CircularDependency × Graph :=
  let fuel := graph.length + (graph.map (fun kv => kv.2.length)).sum + 1
  let nodes := graph.map (fun kv => kv.1)
  let (st, g) := nodes.foldl
    (fun (p : DfsState × Graph) node =>
      let (st, g) := p
      if st.visited.contains node then (st, g)
      else _find_cycles_dfs fuel g node st)
    (⟨[], [], []⟩, graph)
  (st.all_cycles.map (fun c => { nodes := c }), g)

/-- `find_circular_dependencies`, result only. -/
def find_circular_dependencies (graph : Graph) : List CircularDependency :=
  (find_circular_dependencies_st graph).1

/-! ## `analyze_dependencies` (dependency_analyzer.py, lines 45–81)

The function iterates two Python sets — `all_file_paths` and
`files_in_graph` — whose iteration orders CPython does not fix (string
hashing is seed-randomised across runs).  The embedding takes those orders
as the explicit parameters `all_file_paths_order` and
`files_in_graph_order`; theorems constrain them to enumerate the
respective sets. -/

/-- Descending `imported_by_count`, the sort key of `most_imported`
(`sorted(..., reverse=True)` is a stable descending sort). -/
def by_imported_desc (a b : DependencyInfo) : Prop :=
  b.imported_by_count ≤ a.imported_by_count

instance : DecidableRel by_imported_desc := fun a b =>
  inferInstanceAs (Decidable (b.imported_by_count ≤ a.imported_by_count))

/-- Descending `imports_count`, the sort key of `most_importing`. -/
def by_importing_desc (a b : DependencyInfo) : Prop :=
  b.imports_count ≤ a.imports_count

instance : DecidableRel by_importing_desc := fun a b =>
  inferInstanceAs (Decidable (b.imports_count ≤ a.imports_count))

/-- `imported_by_counter.get(p, 0)`: the `Counter` updated with every value
list of the graph holds, for `p`, the number of occurrences of `p` across
the concatenation of those lists (0 when never seen). -/
def imported_by_count (graph : Graph) (p : String) : Nat :=
  ((graph.map (fun kv => kv.2)).flatten).count p

/-- The body of the `for file_path in all_file_paths` loop:
`imports_counter[file_path] = len(graph.get(file_path, []))`, and
`isolated_files.append(file_path)` under `imports_count == 0 and
imported_by_count == 0 and file_path in all_file_paths`.  The first
component of the accumulator is the graph dict being `.get` from;
`imported_by_count` reads the Counter built before the loop. -/
def analyze_loop_step (graph : Graph) (all_file_paths_order : List String)
    (acc : Graph × List (String × Nat) × List String) (file_path : String) :
    Graph × List (String × Nat) × List String :=
  let (g, imports_counter, isolated_files) := acc
  let (deps, g) := dict_get g file_path []
  let imports_count := deps.length
  let imports_counter := imports_counter ++ [(file_path, imports_count)]
  let isolated_files :=
    if imports_count = 0 ∧ imported_by_count graph file_path = 0 ∧
        all_file_paths_order.contains file_path then
      isolated_files ++ [file_path]
    else isolated_files
  (g, imports_counter, isolated_files)

/-- `analyze_dependencies(all_files, graph)`, with the iteration orders of
the two sets explicit and the dictionary states threaded through and
returned, so that read-only-ness is a theorem. -/
def analyze_dependencies_st (all_files : List (String × FileNode)) (graph : Graph)
    (all_file_paths_order files_in_graph_order : List String) :
    DependencyAnalysis × (List (String × FileNode) × Graph) :=
  let loop := all_file_paths_order.foldl
    (analyze_loop_step graph all_file_paths_order) (graph, [], [])
  let g := loop.1
  let imports_counter := loop.2.1
  let isolated_files := loop.2.2
  let dep_info := files_in_graph_order.map
    (fun path =>
      { path := path,
        imported_by_count := imported_by_count graph path,
        imports_count := (List.lookup path imports_counter).getD 0 : DependencyInfo })
  let most_imported := (List.insertionSort by_imported_desc dep_info).take 10
  let most_importing := (List.insertionSort by_importing_desc dep_info).take 10
  ({ most_imported := most_imported,
     most_importing := most_importing,
     isolated_files := isolated_files,
     circular_dependencies := [] },
   (all_files, g))

/-- `analyze_dependencies`, result only. -/
def analyze_dependencies (all_files : List (String × FileNode)) (graph : Graph)
    (all_file_paths_order files_in_graph_order : List String) : DependencyAnalysis :=
  (analyze_dependencies_st all_files graph all_file_paths_order files_in_graph_order).1

/-! ## Python import extraction (python_parser.py, lines 109–139)

The visitor walks the AST; only the `Import` and `ImportFrom` nodes touch
`self.imports`, so a file is embedded as the sequence of those nodes in
visit order.  An `ImportFrom` node carries an optional module name, the
relative level (number of leading dots) and the imported names. -/

/-- A Python import statement as the `ast` module presents it to the
visitor. -/
inductive PyImportStmt where
  /-- `import a, b` — one alias name per imported module. -/
  | imp (names : List String)
  /-- `from <module> import <names>` with `level` leading dots;
  `module` is `none` for `from . import x`. -/
  | imp_from (module : Option String) (level : Nat) (names : List String)
deriving DecidableEq, Repr

/-- `visit_Import`: `for alias in node.names: self.imports.append(alias.name)`. -/
def visit_Import (imports : List String) (names : List String) : List String :=
  imports ++ names

/-- `visit_ImportFrom`: module present → one specifier `"." * level + module`;
module absent with positive level → `"." * level` plus the first imported
name (or the bare dot string when the name list is empty). -/
def visit_ImportFrom (imports : List String) (module : Option String)
    (level : Nat) (names : List String) : List String :=
  match module with
  | some m => imports ++ [dots level ++ m]
  | none =>
    if level > 0 then
      match names with
      | n :: _ => imports ++ [dots level ++ n]
      | [] => imports ++ [dots level]
    else imports

/-- The visitor's `self.imports` after visiting the statements in order. -/
def python_imports (stmts : List PyImportStmt) : List String :=
  stmts.foldl
    (fun imports s =>
      match s with
      | .imp names => visit_Import imports names
      | .imp_from m l ns => visit_ImportFrom imports m l ns)
    []

/-! ## Batch parsing (python_parser.py 143–165, analysis_service.py 29–75)

`parse_python_file` runs `open` + `ast.parse` + visit inside
`try/except`: the body either produces `(elements, imports)` or raises,
which the handlers turn into `([], [])`.  That body is embedded as a
`parse_outcome` input.  `_parse_single_file`'s own `try/except` guards
`relative_to` and `stat`, which the embedding receives as already-computed
inputs, so its failure arm is not modelled; a parse failure never reaches
it.  `asyncio.gather` returns results in task submission order, so the
fan-in loop is a fold over the job list. -/

/-- What the parser body did for one file. -/
inductive parse_outcome where
  | ok (elements : List CodeElement) (imports : List String)
  | raised (message : String)
deriving DecidableEq, Repr

/-- One parsing job: the file's relative path, language, size, and the
outcome of the parser body on its content. -/
structure parse_job where
  path : String
  language : String
  size : Nat
  outcome : parse_outcome
deriving DecidableEq, Repr

/-- `parse_python_file`: returns the parsed pair, or `([], [])` when the
body raised (both `except` arms log and return the empty pair). -/
def parse_python_file (outcome : parse_outcome) : List CodeElement × List String :=
  match outcome with
  | .ok es is => (es, is)
  | .raised _ => ([], [])

/-- `_parse_single_file`: builds the `FileNode` for one job. -/
def _parse_single_file (job : parse_job) : Option FileNode :=
  let parsed := parse_python_file job.outcome
  some { path := job.path, language := job.language, size := job.size,
         elements := parsed.1, imports := parsed.2 }

/-- Python `d[k] = v`: replace in place if the key exists, else append. -/
def dict_insert (m : List (String × FileNode)) (k : String) (v : FileNode) :
    List (String × FileNode) :=
  if containsKey m k then
    m.map (fun kv => if kv.1 == k then (k, v) else kv)
  else m ++ [(k, v)]

/-- `_parse_all_files`: fan-in loop `for result in results: if result:
file_nodes[result.path] = result`. -/
def _parse_all_files (jobs : List parse_job) : List (String × FileNode) :=
  jobs.foldl
    (fun m job =>
      match _parse_single_file job with
      | some result => dict_insert m result.path result
      | none => m)
    []

/-! ## `build_file_tree` (analysis_service.py, lines 78–113)

The Python function mutates shared `FolderNode` objects reachable both
from the tree and from `folder_map`; appending to a folder's `children`
updates both views.  The embedding therefore keeps the single source of
truth the code itself maintains — `folder_map`, an insertion-ordered dict
from folder path to children — with the root under key `"."`.  A child is
either a file or a reference to another folder by its (unique) path, which
is exactly how the Python objects are linked. -/

/-- A child of a folder: a file node, or a reference to the folder with
the given path. -/
inductive Child where
  | file (node : FileNode)
  | folderRef (path : String)
deriving DecidableEq, Repr

/-- The `folder_map` dict: folder path → ordered children. -/
abbrev FolderMap := List (String × List Child)

/-- `folder.children.append(c)` for the folder stored under `k`. -/
def append_child (fm : FolderMap) (k : String) (c : Child) : FolderMap :=
  fm.map (fun kv => if kv.1 = k then (kv.1, kv.2 ++ [c]) else kv)

/-- The three creation lines: `new_folder = FolderNode(path=…)`,
`folder_map[current_path_str] = new_folder` (insert the key at the end of
the dict), `current_parent.children.append(new_folder)`. -/
def create_folder (fm : FolderMap) (parent next_path : String) : FolderMap :=
  append_child (fm ++ [(next_path, [])]) parent (.folderRef next_path)

/-- One iteration of the `for part in parts[:-1]` walk: extend the
current path by the next segment; reuse the folder if `current_path_str`
is already a key of `folder_map`, otherwise create it. -/
def walk_step (st : FolderMap × String) (part : String) : FolderMap × String :=
  let (fm, current_path) := st
  let next_path := if current_path = "." then part
    else current_path ++ "/" ++ part
  if containsKey fm next_path then (fm, next_path)
  else (create_folder fm current_path next_path, next_path)

/-- The body of the outer loop for one file: walk `parts[:-1]`, creating
or reusing each intermediate folder, then append the file to its direct
parent. -/
def add_file (fm : FolderMap) (file_path : String) (node : FileNode) : FolderMap :=
  let parts := splitSlash file_path
  let walk := parts.dropLast.foldl walk_step (fm, ".")
  append_child walk.1 walk.2 (.file node)

/-- The body of the outer `for file_path_str in sorted_paths` loop:
look the key up in the dict (the `none` arm is unreachable because the
keys come from the dict itself) and add the file. -/
def tree_step (file_nodes : List (String × FileNode)) (fm : FolderMap)
    (file_path_str : String) : FolderMap :=
  match List.lookup file_path_str file_nodes with
  | some file_node => add_file fm file_path_str file_node
  | none => fm

/-- `build_file_tree(repo_path, file_nodes)`: files are processed in
`sorted(file_nodes.keys())` order. -/
def build_file_tree (file_nodes : List (String × FileNode)) : FolderMap :=
  (sort_strings (file_nodes.map (fun kv => kv.1))).foldl
    (tree_step file_nodes) [(".", [])]

/-- The folder key the walk in `add_file` ends on: the accumulated join of
all path segments but the last, or `"."` when the file sits at the root. -/
def dir_key (file_path : String) : String :=
  (splitSlash file_path).dropLast.foldl
    (fun current_path part =>
      if current_path = "." then part else current_path ++ "/" ++ part)
    "."

/-- The successive (parent key, folder key) pairs the walk for a file
passes through, starting the accumulation at `cur`: for segments
`["a", "b"]` from `"."` this is `[(".", "a"), ("a", "a/b")]`. -/
def walk_steps (cur : String) (segs : List String) : List (String × String) :=
  (segs.foldl
    (fun (st : String × List (String × String)) part =>
      let np := if st.1 = "." then part else st.1 ++ "/" ++ part
      (np, st.2 ++ [(st.1, np)]))
    (cur, [])).2

/-- The (parent, folder) chain from the root to a file's directory:
for `"a/b/c.py"` this is `[(".", "a"), ("a", "a/b")]`. -/
def ancestor_steps (file_path : String) : List (String × String) :=
  walk_steps "." (splitSlash file_path).dropLast

/-- Children recorded for the folder at `k` (empty for an absent key). -/
def children_at (fm : FolderMap) (k : String) : List Child :=
  (List.lookup k fm).getD []

/-- Total number of occurrences of a child across every folder of the map:
"appears in exactly one node" is `occurrences = 1`. -/
def occurrences (fm : FolderMap) (c : Child) : Nat :=
  (fm.map (fun kv => kv.2.count c)).sum

/-- The parent key of a folder key the walk creates: all path segments but
the last (`"."` for a single-segment key). -/
def folder_parent (k : String) : String :=
  match (splitSlash k).dropLast with
  | [] => "."
  | ps => joinSlash ps

/-- The structural invariant the tree fold maintains: folder keys are
unique, the root key `"."` is present, every non-root folder key has
exactly one incoming reference across the whole map and that reference
sits in its parent folder's children, and no reference points to an
absent key. -/
def folders_inv (fm : FolderMap) : Prop :=
  (fm.map Prod.fst).Nodup ∧
  "." ∈ fm.map Prod.fst ∧
  (∀ k ∈ fm.map Prod.fst, k ≠ "." →
    occurrences fm (Child.folderRef k) = 1 ∧
    Child.folderRef k ∈ children_at fm (folder_parent k)) ∧
  (∀ k : String, k ∉ fm.map Prod.fst →
    occurrences fm (Child.folderRef k) = 0)


/-! ## §4.2's resolution contract (spec side, for the refinement claim) -/

/-- The fixed suffix list §4.2 describes: plain source extensions first,
then the per-language index conventions. -/
def spec_suffixes : List String :=
  [".py", ".js", ".ts", ".jsx", ".tsx",
   "/__init__.py", "/index.js", "/index.ts"]

/-- The probe sequence §4.2 describes: the exact normalised target path
first, then that path with each suffix of the fixed ordered list. -/
def spec_probes (import_path : String) (origin : FileNode) : List String :=
  let p := normpath (parentDir origin.path ++ "/" ++ import_path)
  p :: spec_suffixes.map (fun suf => p ++ suf)

/-- §4.2's resolution: the first probe that is a key of the known-file
set wins; `none` when no probe matches. -/
def spec_resolve (import_path : String) (origin : FileNode)
    (all_files : List (String × FileNode)) : Option String :=
  (spec_probes import_path origin).find? (fun q => containsKey all_files q)

/-- The `main.py` node of the worked example. -/
def example_main_node : FileNode :=
  { path := "main.py", language := "python", size := 100,
    imports := ["./services/a", "./services/b"] }

/-! ## The worked example of §8 ("Graph/edge correctness") -/

/-- The file set of the spec's graph-correctness property: `main` imports
`./services/a` and `./services/b`; `a` imports `../utils/h` and `./b`;
`b` imports `./a`; `h` imports nothing. -/
def example_files : List (String × FileNode) :=
  [("main.py", example_main_node),
   ("services/a.py",
    { path := "services/a.py", language := "python", size := 100,
      imports := ["../utils/h", "./b"] }),
   ("services/b.py",
    { path := "services/b.py", language := "python", size := 100,
      imports := ["./a"] }),
   ("utils/h.py",
    { path := "utils/h.py", language := "python", size := 50,
      imports := [] })]


/-- A one-file map whose file imports itself through path normalisation
(`pkg/pkg.py` importing `./pkg`), plus an external and an unresolvable
specifier — the witness input for the edge-list characterisation. -/
def self_import_node : FileNode :=
  { path := "pkg/pkg.py", language := "python", size := 10,
    imports := ["./pkg", "react", "./missing"] }

def self_import_files : List (String × FileNode) :=
  [("pkg/pkg.py", self_import_node)]


/-- Three files where `c.py` imports the other two: `a.py` and `b.py` tie
on `imported_by_count`, exposing the tie order of `most_imported`. -/
def cex_files : List (String × FileNode) :=
  [("a.py", { path := "a.py", language := "python", size := 1 }),
   ("b.py", { path := "b.py", language := "python", size := 1 }),
   ("c.py", { path := "c.py", language := "python", size := 1,
              imports := ["./a", "./b"] })]


/-- The `FileNode` that `_parse_single_file` builds for a job. -/
def job_file_node (j : parse_job) : FileNode :=
  { path := j.path, language := j.language, size := j.size,
    elements := (parse_python_file j.outcome).1,
    imports := (parse_python_file j.outcome).2 }

/-- A three-job batch, all parses succeeding — the witness input for the
soft-failure claim. -/
def c7_jobs : List parse_job :=
  [{ path := "a.py", language := "python", size := 3,
     outcome := parse_outcome.ok [] ["./b"] },
   { path := "b.py", language := "python", size := 4,
     outcome := parse_outcome.ok [] [] },
   { path := "c.py", language := "python", size := 5,
     outcome := parse_outcome.ok [] ["react"] }]


/-! # Theorems -/

/-! ## Order lemmas for the string comparison -/

theorem lexLt_trans {a b c : List Char} (hab : lexLt a b = true)
    (hbc : lexLt b c = true) : lexLt a c = true := by
  induction a generalizing b c with
  | nil =>
    cases b with
    | nil => simp [lexLt] at hab
    | cons y ys =>
      cases c with
      | nil => simp [lexLt] at hbc
      | cons z zs => simp [lexLt]
  | cons x xs ih =>
    cases b with
    | nil => simp [lexLt] at hab
    | cons y ys =>
      cases c with
      | nil => simp [lexLt] at hbc
      | cons z zs =>
        simp only [lexLt] at hab hbc ⊢
        split at hab
        · split at hbc
          · simp [show x.toNat < z.toNat by omega]
          · split at hbc
            · simp [show x.toNat < z.toNat by omega]
            · exact absurd hbc (by simp)
        · split at hab
          · split at hbc
            · simp [show x.toNat < z.toNat by omega]
            · split at hbc
              · have hxz : ¬ x.toNat < z.toNat := by omega
                simp [hxz, show x.toNat = z.toNat by omega]
                exact ih hab hbc
              · exact absurd hbc (by simp)
          · exact absurd hab (by simp)

theorem lexLt_irrefl (a : List Char) : lexLt a a = false := by
  induction a with
  | nil => simp [lexLt]
  | cons x xs ih => simp [lexLt, ih]

theorem lexLt_asymm {a b : List Char} (h : lexLt a b = true) :
    lexLt b a = false := by
  by_contra hba
  have hba' : lexLt b a = true := by
    cases hx : lexLt b a with
    | false => exact absurd hx hba
    | true => rfl
  have := lexLt_trans h hba'
  rw [lexLt_irrefl] at this
  exact absurd this (by simp)

theorem char_toNat_inj {a b : Char} (h : a.toNat = b.toNat) : a = b := by
  rw [← Char.ofNat_toNat a, ← Char.ofNat_toNat b, h]

theorem lexLt_eq_of_not_lt {a b : List Char} (hab : lexLt a b = false)
    (hba : lexLt b a = false) : a = b := by
  induction a generalizing b with
  | nil =>
    cases b with
    | nil => rfl
    | cons y ys => simp [lexLt] at hab
  | cons x xs ih =>
    cases b with
    | nil => simp [lexLt] at hba
    | cons y ys =>
      simp only [lexLt] at hab hba
      by_cases h1 : x.toNat < y.toNat
      · simp [h1] at hab
      · by_cases h2 : x.toNat = y.toNat
        · simp [h1, h2] at hab
          have h3 : ¬ y.toNat < x.toNat := by omega
          simp [h3, h2.symm] at hba
          rw [char_toNat_inj h2, ih hab hba]
        · by_cases h3 : y.toNat < x.toNat
          · simp [h3] at hba
          · omega

theorem string_data_inj {a b : String} (h : a.data = b.data) : a = b :=
  congrArg String.mk h

theorem str_le_total : ∀ a b : String, str_le a b ∨ str_le b a := by
  intro a b
  unfold str_le
  cases h : lexLt b.data a.data with
  | false => exact Or.inl rfl
  | true => exact Or.inr (lexLt_asymm h)

theorem str_le_trans : ∀ a b c : String, str_le a b → str_le b c → str_le a c := by
  intro a b c hab hbc
  unfold str_le at hab hbc ⊢
  cases h : lexLt c.data a.data with
  | false => rfl
  | true =>
    cases h2 : lexLt a.data b.data with
    | false =>
      rw [lexLt_eq_of_not_lt h2 hab] at h
      rw [h] at hbc
      exact absurd hbc (by simp)
    | true =>
      cases h3 : lexLt b.data c.data with
      | false =>
        rw [lexLt_eq_of_not_lt h3 hbc] at h2
        have := lexLt_asymm h2
        rw [this] at h
        exact absurd h (by simp)
      | true =>
        have := lexLt_asymm (lexLt_trans h2 h3)
        rw [this] at h
        exact absurd h (by simp)

theorem str_le_antisymm : ∀ a b : String, str_le a b → str_le b a → a = b := by
  intro a b hab hba
  exact string_data_inj (lexLt_eq_of_not_lt hba hab)

/-- `sort_strings` is sorted and a permutation of its input; together with
antisymmetry this pins it down uniquely, which is what makes
`build_file_tree`'s processing order independent of dict insertion order. -/
theorem sort_strings_sorted (l : List String) :
    List.Sorted str_le (sort_strings l) :=
  @List.sorted_insertionSort String str_le _ ⟨str_le_total⟩
    ⟨str_le_trans⟩ l

theorem sort_strings_perm (l : List String) : (sort_strings l).Perm l :=
  List.perm_insertionSort str_le l

theorem sort_strings_eq_of_perm {l₁ l₂ : List String} (h : l₁.Perm l₂) :
    sort_strings l₁ = sort_strings l₂ :=
  @List.eq_of_perm_of_sorted String str_le ⟨fun a b => str_le_antisymm a b⟩
    (sort_strings l₁) (sort_strings l₂)
    (((sort_strings_perm l₁).trans h).trans (sort_strings_perm l₂).symm)
    (sort_strings_sorted l₁) (sort_strings_sorted l₂)

/-- C1: on the spec's four-file example, `build_dependency_graph` produces
exactly the edges main→a, main→b, a→h, a→b, b→a (`h` gets no key), and
`find_circular_dependencies` reports exactly one cycle whose member set is
{a, b}, stored as the sorted pair of paths. -/
theorem c1_example_graph_and_cycle :
    build_dependency_graph example_files =
      [("main.py", ["services/a.py", "services/b.py"]),
       ("services/a.py", ["utils/h.py", "services/b.py"]),
       ("services/b.py", ["services/a.py"])] ∧
    find_circular_dependencies (build_dependency_graph example_files) =
      [{ nodes := ["services/a.py", "services/b.py"] }] := by
  constructor
  · decide
  · decide

/-! ## Association-list (Python dict) lemmas -/

theorem containsKey_iff {α : Type} (m : List (String × α)) (k : String) :
    containsKey m k = true ↔ k ∈ m.map Prod.fst := by
  simp only [containsKey, List.any_eq_true, beq_iff_eq, List.mem_map]

theorem lookup_cons_self {α : Type} (k : String) (v : α)
    (rest : List (String × α)) : List.lookup k ((k, v) :: rest) = some v := by
  simp [List.lookup]

theorem lookup_cons_ne {α : Type} {k k2 : String} (v : α)
    (rest : List (String × α)) (h : ¬ k = k2) :
    List.lookup k ((k2, v) :: rest) = List.lookup k rest := by
  have hb : (k == k2) = false := beq_eq_false_iff_ne.mpr h
  simp [List.lookup, hb]

theorem mem_of_lookup_eq_some {α : Type} {m : List (String × α)} {k : String}
    {v : α} (h : List.lookup k m = some v) : (k, v) ∈ m := by
  induction m with
  | nil => simp [List.lookup] at h
  | cons kv rest ih =>
    obtain ⟨k2, v2⟩ := kv
    by_cases hk : k = k2
    · subst hk
      rw [lookup_cons_self] at h
      exact List.mem_cons.mpr (Or.inl (by rw [Option.some.inj h]))
    · rw [lookup_cons_ne v2 rest hk] at h
      exact List.mem_cons.mpr (Or.inr (ih h))

theorem lookup_eq_some_of_mem {α : Type} {m : List (String × α)} {k : String}
    {v : α} (hmem : (k, v) ∈ m) (hnd : (m.map Prod.fst).Nodup) :
    List.lookup k m = some v := by
  induction m with
  | nil => simp at hmem
  | cons kv rest ih =>
    obtain ⟨k2, v2⟩ := kv
    rcases List.mem_cons.mp hmem with heq | htail
    · rw [← heq, lookup_cons_self]
    · have hk : ¬ k = k2 := by
        intro hkk
        have hin : k ∈ rest.map Prod.fst :=
          List.mem_map.mpr ⟨(k, v), htail, rfl⟩
        rw [List.map_cons, List.nodup_cons] at hnd
        exact hnd.1 (by simpa [← hkk] using hin)
      have hnd2 : (rest.map Prod.fst).Nodup := by
        rw [List.map_cons, List.nodup_cons] at hnd
        exact hnd.2
      rw [lookup_cons_ne v2 rest hk]
      exact ih htail hnd2

theorem lookup_eq_none_of_not_mem {α : Type} {m : List (String × α)} {k : String}
    (h : k ∉ m.map Prod.fst) : List.lookup k m = none := by
  induction m with
  | nil => rfl
  | cons kv rest ih =>
    obtain ⟨k2, v2⟩ := kv
    simp only [List.map_cons, List.mem_cons] at h
    push_neg at h
    rw [lookup_cons_ne v2 rest h.1]
    exact ih h.2

/-! ## `dd_append` and the graph-building fold -/

theorem lookupD_nil (k : String) : lookupD [] k = [] := rfl

theorem lookupD_cons_self (k : String) (vs : List String) (rest : Graph) :
    lookupD ((k, vs) :: rest) k = vs := by
  simp [lookupD, dict_get, lookup_cons_self]

theorem lookupD_cons_ne {k k2 : String} (vs : List String) (rest : Graph)
    (h : ¬ k = k2) : lookupD ((k2, vs) :: rest) k = lookupD rest k := by
  simp [lookupD, dict_get, lookup_cons_ne vs rest h]

theorem dd_append_lookupD_self (g : Graph) (k v : String) :
    lookupD (dd_append g k v) k = lookupD g k ++ [v] := by
  induction g with
  | nil =>
    show lookupD ((k, [v]) :: []) k = lookupD [] k ++ [v]
    rw [lookupD_cons_self, lookupD_nil]
    rfl
  | cons kv rest ih =>
    obtain ⟨k2, vs⟩ := kv
    by_cases h : k2 = k
    · subst h
      have hd : dd_append ((k2, vs) :: rest) k2 v = (k2, vs ++ [v]) :: rest := by
        simp [dd_append]
      rw [hd, lookupD_cons_self, lookupD_cons_self]
    · have h2 : ¬ k = k2 := fun hh => h hh.symm
      simp only [dd_append, if_neg h]
      rw [lookupD_cons_ne vs _ h2, lookupD_cons_ne vs rest h2]
      exact ih

theorem dd_append_lookupD_other (g : Graph) (k v k2 : String) (h : k2 ≠ k) :
    lookupD (dd_append g k v) k2 = lookupD g k2 := by
  induction g with
  | nil =>
    exact lookupD_cons_ne [v] [] h
  | cons kv rest ih =>
    obtain ⟨k0, vs⟩ := kv
    by_cases h0 : k0 = k
    · subst h0
      have hd : dd_append ((k0, vs) :: rest) k0 v = (k0, vs ++ [v]) :: rest := by
        simp [dd_append]
      rw [hd]
      have hne : ¬ k2 = k0 := h
      rw [lookupD_cons_ne (vs ++ [v]) rest hne, lookupD_cons_ne vs rest hne]
    · simp only [dd_append, if_neg h0]
      by_cases h1 : k2 = k0
      · subst h1
        rw [lookupD_cons_self, lookupD_cons_self]
      · rw [lookupD_cons_ne vs _ h1, lookupD_cons_ne vs rest h1]
        exact ih

theorem normpath_ne_empty (s : String) : normpath s ≠ "" := by
  unfold normpath
  split
  · decide
  · dsimp only
    split
    · decide
    · assumption

theorem resolve_result_props {import_path : String} {file_node : FileNode}
    {all_files : List (String × FileNode)} {r : String}
    (h : _resolve_relative_import import_path file_node all_files = some r) :
    r ≠ "" ∧ containsKey all_files r = true := by
  unfold _resolve_relative_import at h
  by_cases hc : containsKey all_files
      (normpath (parentDir file_node.path ++ "/" ++ import_path)) = true
  · rw [if_pos hc] at h
    have hr := Option.some.inj h
    refine ⟨?_, by rw [← hr]; exact hc⟩
    rw [← hr]
    exact normpath_ne_empty _
  · rw [if_neg hc] at h
    have hpred := List.find?_some h
    have hmem := List.mem_of_find?_eq_some h
    refine ⟨?_, hpred⟩
    rcases List.mem_map.mp hmem with ⟨ext, _, hr⟩
    intro hempty
    rw [← hr] at hempty
    have hdata : ((normpath (parentDir file_node.path ++ "/" ++ import_path)
        ++ ext).data.map (fun ch => if ch = '\\' then '/' else ch)) = [] := by
      have := congrArg String.data hempty
      simpa [replaceBackslash] using this
    rw [List.map_eq_nil_iff] at hdata
    have hnp := normpath_ne_empty (parentDir file_node.path ++ "/" ++ import_path)
    have : (normpath (parentDir file_node.path ++ "/" ++ import_path)).data = [] := by
      have hap : (normpath (parentDir file_node.path ++ "/" ++ import_path)).data
          ++ ext.data = [] := by
        rw [← String.data_append]
        exact hdata
      exact List.append_eq_nil.mp hap |>.1
    exact hnp (string_data_inj this)

theorem edges_fold_self (all_files : List (String × FileNode)) (k : String)
    (node : FileNode) :
    ∀ (imports : List String) (g : Graph),
    lookupD (imports.foldl (process_import all_files k node) g) k =
      lookupD g k ++ imports.filterMap
        (fun import_path =>
          if headIsDot import_path then
            _resolve_relative_import import_path node all_files
          else none) := by
  intro imports
  induction imports with
  | nil => intro g; simp
  | cons imp rest ih =>
    intro g
    rw [List.foldl_cons]
    by_cases hd : headIsDot imp = true
    · simp only [process_import, if_pos hd, List.filterMap_cons, hd, if_true]
      cases hr : _resolve_relative_import imp node all_files with
      | none => simpa using ih g
      | some r =>
        obtain ⟨h1, h2⟩ := resolve_result_props hr
        simp only [if_pos (And.intro h1 h2)]
        rw [ih (dd_append g k r), dd_append_lookupD_self, List.append_assoc]
        rfl
    · have hd2 : headIsDot imp = false := by
        cases hx : headIsDot imp with
        | false => rfl
        | true => exact absurd hx hd
      simp only [process_import, hd2, if_false, List.filterMap_cons,
        Bool.false_eq_true]
      exact ih g

theorem edges_fold_other (all_files : List (String × FileNode)) (k k2 : String)
    (node : FileNode) (h : k2 ≠ k) :
    ∀ (imports : List String) (g : Graph),
    lookupD (imports.foldl (process_import all_files k node) g) k2 =
      lookupD g k2 := by
  intro imports
  induction imports with
  | nil => intro g; rfl
  | cons imp rest ih =>
    intro g
    rw [List.foldl_cons]
    by_cases hd : headIsDot imp = true
    · simp only [process_import, if_pos hd]
      cases hr : _resolve_relative_import imp node all_files with
      | none => exact ih g
      | some r =>
        obtain ⟨h1, h2⟩ := resolve_result_props hr
        simp only [if_pos (And.intro h1 h2)]
        rw [ih (dd_append g k r), dd_append_lookupD_other g k r k2 h]
    · have hd2 : headIsDot imp = false := by
        cases hx : headIsDot imp with
        | false => rfl
        | true => exact absurd hx hd
      simp only [process_import, hd2, if_false, Bool.false_eq_true]
      exact ih g

theorem build_fold_other (all_files : List (String × FileNode)) (k : String) :
    ∀ (l : List (String × FileNode)) (g : Graph),
    (∀ kv ∈ l, kv.1 ≠ k) →
    lookupD (l.foldl (process_file all_files) g) k = lookupD g k := by
  intro l
  induction l with
  | nil => intro g _; rfl
  | cons kv rest ih =>
    intro g hne
    rw [List.foldl_cons]
    rw [ih (process_file all_files g kv) (fun x hx => hne x (List.mem_cons_of_mem kv hx))]
    have hk : k ≠ kv.1 := fun hh => hne kv (List.mem_cons_self kv rest) hh.symm
    exact edges_fold_other all_files kv.1 k kv.2 hk kv.2.imports g

theorem build_fold_self (all_files : List (String × FileNode)) (k : String)
    (node : FileNode) :
    ∀ (l : List (String × FileNode)) (g : Graph),
    (k, node) ∈ l → (l.map Prod.fst).Nodup →
    lookupD (l.foldl (process_file all_files) g) k =
      lookupD g k ++ resolved_edges node all_files := by
  intro l
  induction l with
  | nil => intro g hmem _; simp at hmem
  | cons kv rest ih =>
    intro g hmem hnd
    rw [List.map_cons, List.nodup_cons] at hnd
    rcases List.mem_cons.mp hmem with heq | htail
    · rw [List.foldl_cons]
      have hrest : ∀ x ∈ rest, x.1 ≠ k := by
        intro x hx hxk
        exact hnd.1 (by
          rw [← heq]
          exact hxk ▸ List.mem_map.mpr ⟨x, hx, rfl⟩)
      rw [build_fold_other all_files k rest (process_file all_files g kv) hrest]
      have h1 : kv.1 = k := by rw [← heq]
      have h2 : kv.2 = node := by rw [← heq]
      rw [show process_file all_files g kv =
        kv.2.imports.foldl (process_import all_files kv.1 kv.2) g from rfl]
      rw [h1, h2]
      exact edges_fold_self all_files k node node.imports g
    · rw [List.foldl_cons]
      have hne : kv.1 ≠ k := by
        intro hh
        exact hnd.1 (hh ▸ List.mem_map.mpr ⟨(k, node), htail, rfl⟩)
      have hne2 : k ≠ kv.1 := fun hh => hne hh.symm
      rw [ih (process_file all_files g kv) htail hnd.2]
      rw [show process_file all_files g kv =
        kv.2.imports.foldl (process_import all_files kv.1 kv.2) g from rfl]
      rw [edges_fold_other all_files kv.1 k kv.2 hne2 kv.2.imports g]

/-- C4: for every file map with distinct keys, the edge list the built
graph holds for a file is exactly the list of successful resolutions of
that file's lexically-relative import specifiers in source order —
non-relative specifiers contribute nothing, duplicates are kept,
unresolved specifiers are dropped, and a self-resolving specifier yields a
self-edge (no suppression), all of which `resolved_edges` spells out. -/
theorem c4_edge_list_exact (all_files : List (String × FileNode))
    (hnd : (all_files.map Prod.fst).Nodup)
    (k : String) (node : FileNode) (hmem : (k, node) ∈ all_files) :
    lookupD (build_dependency_graph all_files) k =
      resolved_edges node all_files := by
  have h := build_fold_self all_files k node all_files [] hmem hnd
  rw [lookupD_nil] at h
  rw [show build_dependency_graph all_files =
    all_files.foldl (process_file all_files) [] from rfl]
  rw [h]
  rfl

/-- Witness for C4 at the self-import example: the single file gets the
self-edge, the bare specifier `react` and the unresolvable `./missing`
produce nothing. -/
theorem c4_witness :
    lookupD (build_dependency_graph self_import_files) "pkg/pkg.py" =
      ["pkg/pkg.py"] := by
  have h := c4_edge_list_exact self_import_files (by decide)
    "pkg/pkg.py" self_import_node (by decide)
  rw [h]
  decide

/-- C9: the graph is closed over the analysed set and sparse — every key
is a key of the input file map, every stored edge list is non-empty, and
every edge target is a key of the input file map. -/
theorem c9_graph_closed (all_files : List (String × FileNode)) :
    ∀ kv ∈ build_dependency_graph all_files,
      kv.1 ∈ all_files.map Prod.fst ∧ kv.2 ≠ [] ∧
      ∀ t ∈ kv.2, t ∈ all_files.map Prod.fst := by
  have dd_closed : ∀ (g : Graph) (k v : String),
      (∀ kv ∈ g, kv.1 ∈ all_files.map Prod.fst ∧ kv.2 ≠ [] ∧
        ∀ t ∈ kv.2, t ∈ all_files.map Prod.fst) →
      k ∈ all_files.map Prod.fst → v ∈ all_files.map Prod.fst →
      ∀ kv ∈ dd_append g k v, kv.1 ∈ all_files.map Prod.fst ∧ kv.2 ≠ [] ∧
        ∀ t ∈ kv.2, t ∈ all_files.map Prod.fst := by
    intro g k v hg hk hv
    induction g with
    | nil =>
      intro kv hkv
      rcases List.mem_cons.mp hkv with heq | habs
      · rw [heq]
        exact ⟨hk, by simp, by intro t ht; simp at ht; rw [ht]; exact hv⟩
      · simp at habs
    | cons kv0 rest ih =>
      obtain ⟨k0, vs⟩ := kv0
      have hg0 := hg (k0, vs) (List.mem_cons_self _ _)
      have hgrest : ∀ kv ∈ rest, kv.1 ∈ all_files.map Prod.fst ∧ kv.2 ≠ [] ∧
          ∀ t ∈ kv.2, t ∈ all_files.map Prod.fst :=
        fun kv hkv => hg kv (List.mem_cons_of_mem _ hkv)
      by_cases h0 : k0 = k
      · intro kv hkv
        simp only [dd_append, if_pos h0] at hkv
        rcases List.mem_cons.mp hkv with heq | htail
        · rw [heq]
          refine ⟨hg0.1, by simp, ?_⟩
          intro t ht
          rcases List.mem_append.mp ht with h1 | h2
          · exact hg0.2.2 t h1
          · simp at h2; rw [h2]; exact hv
        · exact hgrest kv htail
      · intro kv hkv
        simp only [dd_append, if_neg h0] at hkv
        rcases List.mem_cons.mp hkv with heq | htail
        · rw [heq]; exact hg0
        · exact ih hgrest kv htail
  have import_closed : ∀ (k : String) (node : FileNode)
      (imports : List String) (g : Graph),
      (∀ kv ∈ g, kv.1 ∈ all_files.map Prod.fst ∧ kv.2 ≠ [] ∧
        ∀ t ∈ kv.2, t ∈ all_files.map Prod.fst) →
      k ∈ all_files.map Prod.fst →
      ∀ kv ∈ imports.foldl (process_import all_files k node) g,
        kv.1 ∈ all_files.map Prod.fst ∧ kv.2 ≠ [] ∧
        ∀ t ∈ kv.2, t ∈ all_files.map Prod.fst := by
    intro k node imports
    induction imports with
    | nil => intro g hg _; exact hg
    | cons imp rest ih =>
      intro g hg hk
      rw [List.foldl_cons]
      refine ih (process_import all_files k node g imp) ?_ hk
      by_cases hd : headIsDot imp = true
      · simp only [process_import, if_pos hd]
        cases hr : _resolve_relative_import imp node all_files with
        | none => exact hg
        | some r =>
          obtain ⟨h1, h2⟩ := resolve_result_props hr
          simp only [if_pos (And.intro h1 h2)]
          exact dd_closed g k r hg hk ((containsKey_iff all_files r).mp h2)
      · have hd2 : headIsDot imp = false := by
          cases hx : headIsDot imp with
          | false => rfl
          | true => exact absurd hx hd
        simp only [process_import, hd2, if_false, Bool.false_eq_true]
        exact hg
  have main : ∀ (l : List (String × FileNode)) (g : Graph),
      (∀ kv ∈ l, kv ∈ all_files) →
      (∀ kv ∈ g, kv.1 ∈ all_files.map Prod.fst ∧ kv.2 ≠ [] ∧
        ∀ t ∈ kv.2, t ∈ all_files.map Prod.fst) →
      ∀ kv ∈ l.foldl (process_file all_files) g,
        kv.1 ∈ all_files.map Prod.fst ∧ kv.2 ≠ [] ∧
        ∀ t ∈ kv.2, t ∈ all_files.map Prod.fst := by
    intro l
    induction l with
    | nil => intro g _ hg; exact hg
    | cons kv0 rest ih =>
      intro g hl hg
      rw [List.foldl_cons]
      refine ih (process_file all_files g kv0)
        (fun x hx => hl x (List.mem_cons_of_mem _ hx)) ?_
      have hk : kv0.1 ∈ all_files.map Prod.fst :=
        List.mem_map.mpr ⟨kv0, hl kv0 (List.mem_cons_self _ _), rfl⟩
      exact import_closed kv0.1 kv0.2 kv0.2.imports g hg hk
  exact main all_files [] (fun kv hkv => hkv) (by intro kv hkv; simp at hkv)

/-- Witness for C9 at the §8 example, checked for the `main.py` entry. -/
theorem c9_witness :
    "main.py" ∈ example_files.map Prod.fst ∧
    (["services/a.py", "services/b.py"] : List String) ≠ [] ∧
    ∀ t ∈ (["services/a.py", "services/b.py"] : List String),
      t ∈ example_files.map Prod.fst :=
  c9_graph_closed example_files ("main.py", ["services/a.py", "services/b.py"])
    (by decide)

/-- C3: for every specifier, origin file and known-file set (with the
backslash-free-probe side condition that holds for every POSIX path),
`_resolve_relative_import` returns exactly what §4.2's probe order
prescribes: the normalised target path relative to the origin's directory
is tried first, then each suffix of the fixed list in order, and the
first probe that is a key of the known-file set wins (`none` otherwise).
The code probes the exact path twice — once directly and once via the
`""` entry of `extensions_to_try` — which is observably the same. -/
theorem c3_resolution_order (import_path : String) (origin : FileNode)
    (all_files : List (String × FileNode))
    (hb : ∀ ext ∈ extensions_to_try,
      replaceBackslash
          (normpath (parentDir origin.path ++ "/" ++ import_path) ++ ext) =
        normpath (parentDir origin.path ++ "/" ++ import_path) ++ ext) :
    _resolve_relative_import import_path origin all_files =
      spec_resolve import_path origin all_files := by
  unfold _resolve_relative_import spec_resolve spec_probes
  by_cases hc : containsKey all_files
      (normpath (parentDir origin.path ++ "/" ++ import_path)) = true
  · rw [if_pos hc]
    dsimp only
    rw [List.find?_cons_of_pos _ hc]
  · rw [if_neg hc]
    have hext : extensions_to_try = "" :: spec_suffixes := rfl
    rw [hext, List.map_cons]
    have h0 : replaceBackslash
        (normpath (parentDir origin.path ++ "/" ++ import_path) ++ "") =
        normpath (parentDir origin.path ++ "/" ++ import_path) := by
      rw [hb "" (by decide)]
      apply string_data_inj
      rw [String.data_append]
      simp [show ("" : String).data = [] from rfl]
    rw [h0]
    have hmap : spec_suffixes.map (fun ext => replaceBackslash
        (normpath (parentDir origin.path ++ "/" ++ import_path) ++ ext)) =
        spec_suffixes.map (fun suf =>
          normpath (parentDir origin.path ++ "/" ++ import_path) ++ suf) :=
      List.map_congr_left (fun ext hx =>
        hb ext (hext ▸ List.mem_cons_of_mem "" hx))
    rw [hmap]

/-- Witness for C3: resolving `./services/a` from `main.py` in the worked
example agrees with the spec's probe order and lands on
`services/a.py` (via the `.py` suffix). -/
theorem c3_witness :
    _resolve_relative_import "./services/a" example_main_node example_files =
      spec_resolve "./services/a" example_main_node example_files ∧
    spec_resolve "./services/a" example_main_node example_files =
      some "services/a.py" :=
  ⟨c3_resolution_order "./services/a" example_main_node example_files
    (by decide), by decide⟩

/-! ## The `analyze_dependencies` loop in closed form -/

theorem analyze_loop_closed (graph : Graph) (afp : List String) :
    ∀ (l : List String) (g0 : Graph) (ic0 : List (String × Nat))
      (iso0 : List String),
    l.foldl (analyze_loop_step graph afp) (g0, ic0, iso0) =
      (g0,
       ic0 ++ l.map (fun p => (p, (lookupD g0 p).length)),
       iso0 ++ l.filter (fun p => decide ((lookupD g0 p).length = 0 ∧
         imported_by_count graph p = 0 ∧ afp.contains p = true))) := by
  intro l
  induction l with
  | nil => intro g0 ic0 iso0; simp
  | cons p rest ih =>
    intro g0 ic0 iso0
    rw [List.foldl_cons]
    have hstep : analyze_loop_step graph afp (g0, ic0, iso0) p =
        (g0, ic0 ++ [(p, (lookupD g0 p).length)],
         if (lookupD g0 p).length = 0 ∧ imported_by_count graph p = 0 ∧
             afp.contains p = true then
           iso0 ++ [p]
         else iso0) := rfl
    rw [hstep]
    by_cases hc : (lookupD g0 p).length = 0 ∧ imported_by_count graph p = 0 ∧
        afp.contains p = true
    · rw [if_pos hc, ih]
      have hf : decide ((lookupD g0 p).length = 0 ∧
          imported_by_count graph p = 0 ∧ afp.contains p = true) = true :=
        decide_eq_true hc
      rw [@List.filter_cons_of_pos String
        (fun q => decide ((lookupD g0 q).length = 0 ∧
          imported_by_count graph q = 0 ∧ afp.contains q = true)) p rest hf]
      simp [List.append_assoc]
    · rw [if_neg hc, ih]
      have hf : ¬ decide ((lookupD g0 p).length = 0 ∧
          imported_by_count graph p = 0 ∧ afp.contains p = true) = true :=
        fun h => hc (of_decide_eq_true h)
      rw [@List.filter_cons_of_neg String
        (fun q => decide ((lookupD g0 q).length = 0 ∧
          imported_by_count graph q = 0 ∧ afp.contains q = true)) p rest hf]
      simp [List.append_assoc]

/-- The `isolated_files` component in closed form: the members of
`all_file_paths` (in iteration order) whose outgoing edge list is empty
and which no edge targets. -/
theorem isolated_files_closed (all_files : List (String × FileNode))
    (graph : Graph) (afp fig : List String) :
    (analyze_dependencies all_files graph afp fig).isolated_files =
      afp.filter (fun q => decide ((lookupD graph q).length = 0 ∧
        imported_by_count graph q = 0 ∧ afp.contains q = true)) := by
  show (afp.foldl (analyze_loop_step graph afp) (graph, [], [])).2.2 = _
  rw [analyze_loop_closed graph afp afp graph [] []]
  simp

/-- C5: for every file map, a file of the map appears in
`isolated_files` (computed on the graph built from the map) iff its
outgoing resolved edge count is 0 and no edge in the whole graph targets
it — in particular a file whose imports are all unresolved or external
and that nothing imports is reported isolated. -/
theorem c5_isolated_iff (all_files : List (String × FileNode))
    (afp fig : List String)
    (hafp : ∀ q, q ∈ afp ↔ q ∈ all_files.map Prod.fst)
    (p : String) (hp : p ∈ all_files.map Prod.fst) :
    p ∈ (analyze_dependencies all_files (build_dependency_graph all_files)
          afp fig).isolated_files ↔
      (lookupD (build_dependency_graph all_files) p = [] ∧
       imported_by_count (build_dependency_graph all_files) p = 0) := by
  rw [isolated_files_closed, List.mem_filter]
  simp only [decide_eq_true_eq]
  constructor
  · rintro ⟨_, h1, h2, _⟩
    exact ⟨List.length_eq_zero.mp h1, h2⟩
  · rintro ⟨h1, h2⟩
    have hpa : p ∈ afp := (hafp p).mpr hp
    refine ⟨hpa, ?_, h2, ?_⟩
    · rw [h1]
      rfl
    · simpa [List.contains] using List.elem_iff.mpr hpa

/-! ## The cycle DFS never writes the graph -/

theorem find_cycles_dfs_preserves :
    ∀ (fuel : Nat) (g : Graph) (node : String) (st : DfsState),
    (_find_cycles_dfs fuel g node st).2 = g := by
  intro fuel
  induction fuel with
  | zero => intro g node st; rfl
  | succ n ih =>
    intro g node st
    have inner : ∀ (l : List String) (p : DfsState × Graph), p.2 = g →
        (l.foldl
          (fun (p : DfsState × Graph) neighbor =>
            let (st, g) := p
            if st.visited.contains neighbor = false then
              _find_cycles_dfs n g neighbor st
            else if st.recursion_stack.contains neighbor then
              let start_index := st.recursion_stack.indexOf neighbor
              let cycle := sort_strings (st.recursion_stack.drop start_index)
              ({ st with all_cycles := set_add_cycle st.all_cycles cycle }, g)
            else (st, g))
          p).2 = g := by
      intro l
      induction l with
      | nil => intro p hp; exact hp
      | cons nb rest ihl =>
        intro p hp
        rw [List.foldl_cons]
        apply ihl
        obtain ⟨pst, pg⟩ := p
        have hpg : pg = g := hp
        dsimp only
        by_cases h1 : pst.visited.contains nb = false
        · rw [if_pos h1, ih, hpg]
        · rw [if_neg h1]
          by_cases h2 : pst.recursion_stack.contains nb = true
          · rw [if_pos h2]
            exact hpg
          · rw [if_neg h2]
            exact hpg
    exact inner ((List.lookup node g).getD [])
      ({ st with visited := set_add st.visited node,
                 recursion_stack := st.recursion_stack ++ [node] }, g) rfl

theorem find_circular_st_preserves (graph : Graph) :
    (find_circular_dependencies_st graph).2 = graph := by
  have outer : ∀ (l : List String) (p : DfsState × Graph), p.2 = graph →
      (l.foldl
        (fun (p : DfsState × Graph) node =>
          let (st, g) := p
          if st.visited.contains node then (st, g)
          else _find_cycles_dfs
            (graph.length + (graph.map (fun kv => kv.2.length)).sum + 1)
            g node st)
        p).2 = graph := by
    intro l
    induction l with
    | nil => intro p hp; exact hp
    | cons node rest ihl =>
      intro p hp
      rw [List.foldl_cons]
      apply ihl
      obtain ⟨pst, pg⟩ := p
      have hpg : pg = graph := hp
      dsimp only
      by_cases h1 : pst.visited.contains node = true
      · rw [if_pos h1]
        exact hpg
      · rw [if_neg h1, find_cycles_dfs_preserves, hpg]
  exact outer (graph.map (fun kv => kv.1)) (⟨[], [], []⟩, graph) rfl

/-- C10: `analyze_dependencies` and `find_circular_dependencies` are
read-only over their inputs: every dictionary access they perform is a
`dict.get` (never a `defaultdict` index, which would insert the missing
key), so the graph state they return is the graph they received, with the
same keys and the same edge lists, and the file map is returned untouched. -/
theorem c10_read_only (all_files : List (String × FileNode)) (graph : Graph)
    (afp fig : List String) :
    (analyze_dependencies_st all_files graph afp fig).2 = (all_files, graph) ∧
    (find_circular_dependencies_st graph).2 = graph := by
  constructor
  · show (all_files,
      (afp.foldl (analyze_loop_step graph afp) (graph, [], [])).1) =
      (all_files, graph)
    rw [analyze_loop_closed graph afp afp graph [] []]
  · exact find_circular_st_preserves graph

/-! ## The ranking lists of `analyze_dependencies` -/

theorem analyze_most_imported (all_files : List (String × FileNode))
    (graph : Graph) (afp fig : List String) :
    (analyze_dependencies all_files graph afp fig).most_imported =
      (List.insertionSort by_imported_desc (fig.map (fun path =>
        { path := path,
          imported_by_count := imported_by_count graph path,
          imports_count := (List.lookup path
            (afp.map (fun p => (p, (lookupD graph p).length)))).getD 0 :
          DependencyInfo }))).take 10 := by
  show (List.insertionSort by_imported_desc (fig.map (fun path =>
    { path := path,
      imported_by_count := imported_by_count graph path,
      imports_count := (List.lookup path
        (afp.foldl (analyze_loop_step graph afp) (graph, [], [])).2.1).getD 0 :
      DependencyInfo }))).take 10 = _
  rw [analyze_loop_closed graph afp afp graph [] []]
  simp

theorem analyze_most_importing (all_files : List (String × FileNode))
    (graph : Graph) (afp fig : List String) :
    (analyze_dependencies all_files graph afp fig).most_importing =
      (List.insertionSort by_importing_desc (fig.map (fun path =>
        { path := path,
          imported_by_count := imported_by_count graph path,
          imports_count := (List.lookup path
            (afp.map (fun p => (p, (lookupD graph p).length)))).getD 0 :
          DependencyInfo }))).take 10 := by
  show (List.insertionSort by_importing_desc (fig.map (fun path =>
    { path := path,
      imported_by_count := imported_by_count graph path,
      imports_count := (List.lookup path
        (afp.foldl (analyze_loop_step graph afp) (graph, [], [])).2.1).getD 0 :
      DependencyInfo }))).take 10 = _
  rw [analyze_loop_closed graph afp afp graph [] []]
  simp

/-- C2 counterexample: the claim requires ties in count to be broken by
ascending path and the ordering to be identical across runs.  In the code,
`dep_info` is built by iterating the Python *set* `files_in_graph`, whose
iteration order is hash-seed dependent, and `sorted(..., reverse=True)` is
stable with no path tie-break.  Below, two legitimate iteration orders of
the same three-element set (both duplicate-free, mutually permuted, and
enumerating exactly the sources and targets of the built graph) give
`most_imported` lists that differ, and under the second order `b.py`
precedes `a.py` although both have `imported_by_count = 1` — the opposite
of the ascending-path tie-break the claim asserts. -/
theorem c2_counterexample :
    (List.Nodup ["c.py", "a.py", "b.py"] ∧ List.Nodup ["c.py", "b.py", "a.py"] ∧
     List.Perm ["c.py", "a.py", "b.py"] ["c.py", "b.py", "a.py"] ∧
     (∀ q ∈ (["c.py", "a.py", "b.py"] : List String),
        q ∈ (build_dependency_graph cex_files).map Prod.fst ∨
        q ∈ ((build_dependency_graph cex_files).map (fun kv => kv.2)).flatten) ∧
     (∀ q ∈ (build_dependency_graph cex_files).map Prod.fst,
        q ∈ (["c.py", "a.py", "b.py"] : List String)) ∧
     (∀ q ∈ ((build_dependency_graph cex_files).map (fun kv => kv.2)).flatten,
        q ∈ (["c.py", "a.py", "b.py"] : List String))) ∧
    (analyze_dependencies cex_files (build_dependency_graph cex_files)
        ["a.py", "b.py", "c.py"] ["c.py", "b.py", "a.py"]).most_imported =
      [{ path := "b.py", imported_by_count := 1, imports_count := 0 },
       { path := "a.py", imported_by_count := 1, imports_count := 0 },
       { path := "c.py", imported_by_count := 0, imports_count := 2 }] ∧
    (analyze_dependencies cex_files (build_dependency_graph cex_files)
        ["a.py", "b.py", "c.py"] ["c.py", "a.py", "b.py"]).most_imported ≠
      (analyze_dependencies cex_files (build_dependency_graph cex_files)
        ["a.py", "b.py", "c.py"] ["c.py", "b.py", "a.py"]).most_imported := by
  refine ⟨⟨?_, ?_, ?_, ?_, ?_, ?_⟩, ?_, ?_⟩ <;> decide

/-- C2 amended: for every dependency graph and every iteration order of the
`files_in_graph` set (constrained to enumerate exactly the sources and
targets of edges), `most_imported` and `most_importing` are sorted
descending by the relevant count, truncated to the top 10, and contain
only — and, when at most 10 files have an edge, exactly — the files that
are a source or target of at least one edge.  Ties keep the set's
iteration order (the sort is stable); they are *not* broken by ascending
path, so the ordering is deterministic only for a fixed iteration order,
not across runs. -/
theorem c2_ranking_amended (all_files : List (String × FileNode))
    (graph : Graph) (afp fig : List String)
    (hfig : ∀ q ∈ fig, q ∈ graph.map Prod.fst ∨
      q ∈ (graph.map (fun kv => kv.2)).flatten)
    (hfig2 : ∀ q ∈ graph.map Prod.fst, q ∈ fig)
    (hfig3 : ∀ q ∈ (graph.map (fun kv => kv.2)).flatten, q ∈ fig) :
    List.Sorted by_imported_desc
      (analyze_dependencies all_files graph afp fig).most_imported ∧
    List.Sorted by_importing_desc
      (analyze_dependencies all_files graph afp fig).most_importing ∧
    (analyze_dependencies all_files graph afp fig).most_imported.length =
      min 10 fig.length ∧
    (analyze_dependencies all_files graph afp fig).most_importing.length =
      min 10 fig.length ∧
    (∀ d ∈ (analyze_dependencies all_files graph afp fig).most_imported,
      d.path ∈ graph.map Prod.fst ∨
      d.path ∈ (graph.map (fun kv => kv.2)).flatten) ∧
    (∀ d ∈ (analyze_dependencies all_files graph afp fig).most_importing,
      d.path ∈ graph.map Prod.fst ∨
      d.path ∈ (graph.map (fun kv => kv.2)).flatten) ∧
    (fig.length ≤ 10 →
      ∀ q, (q ∈ graph.map Prod.fst ∨
        q ∈ (graph.map (fun kv => kv.2)).flatten) →
        (∃ d ∈ (analyze_dependencies all_files graph afp fig).most_imported,
          d.path = q) ∧
        (∃ d ∈ (analyze_dependencies all_files graph afp fig).most_importing,
          d.path = q)) := by
  have htot1 : IsTotal DependencyInfo by_imported_desc :=
    ⟨fun a b => Nat.le_total b.imported_by_count a.imported_by_count⟩
  have htrans1 : IsTrans DependencyInfo by_imported_desc :=
    ⟨fun _ _ _ hab hbc => Nat.le_trans hbc hab⟩
  have htot2 : IsTotal DependencyInfo by_importing_desc :=
    ⟨fun a b => Nat.le_total b.imports_count a.imports_count⟩
  have htrans2 : IsTrans DependencyInfo by_importing_desc :=
    ⟨fun _ _ _ hab hbc => Nat.le_trans hbc hab⟩
  rw [analyze_most_imported, analyze_most_importing]
  set I := fig.map (fun path =>
    { path := path,
      imported_by_count := imported_by_count graph path,
      imports_count := (List.lookup path
        (afp.map (fun p => (p, (lookupD graph p).length)))).getD 0 :
      DependencyInfo }) with hI
  have hlen : I.length = fig.length := List.length_map _ _
  have hmem1 : ∀ d ∈ (List.insertionSort by_imported_desc I).take 10,
      d.path ∈ graph.map Prod.fst ∨
      d.path ∈ (graph.map (fun kv => kv.2)).flatten := by
    intro d hd
    have hdI : d ∈ I :=
      (List.perm_insertionSort by_imported_desc I).subset
        ((List.take_sublist 10 _).subset hd)
    rcases List.mem_map.mp hdI with ⟨q, hq, hdq⟩
    rw [← hdq]
    exact hfig q hq
  have hmem2 : ∀ d ∈ (List.insertionSort by_importing_desc I).take 10,
      d.path ∈ graph.map Prod.fst ∨
      d.path ∈ (graph.map (fun kv => kv.2)).flatten := by
    intro d hd
    have hdI : d ∈ I :=
      (List.perm_insertionSort by_importing_desc I).subset
        ((List.take_sublist 10 _).subset hd)
    rcases List.mem_map.mp hdI with ⟨q, hq, hdq⟩
    rw [← hdq]
    exact hfig q hq
  refine ⟨?_, ?_, ?_, ?_, hmem1, hmem2, ?_⟩
  · exact List.Pairwise.sublist (List.take_sublist 10 _)
      (@List.sorted_insertionSort _ _ _ htot1 htrans1 I)
  · exact List.Pairwise.sublist (List.take_sublist 10 _)
      (@List.sorted_insertionSort _ _ _ htot2 htrans2 I)
  · rw [List.length_take, List.length_insertionSort, hlen]
  · rw [List.length_take, List.length_insertionSort, hlen]
  · intro h10 q hq
    have hqfig : q ∈ fig := by
      rcases hq with h | h
      · exact hfig2 q h
      · exact hfig3 q h
    have hqI : (⟨q, imported_by_count graph q,
        (List.lookup q
          (afp.map (fun p => (p, (lookupD graph p).length)))).getD 0⟩ :
        DependencyInfo) ∈ I :=
      List.mem_map.mpr ⟨q, hqfig, rfl⟩
    constructor
    · have hlen1 : (List.insertionSort by_imported_desc I).length ≤ 10 := by
        rw [List.length_insertionSort, hlen]
        exact h10
      rw [List.take_of_length_le hlen1]
      exact ⟨_, (List.perm_insertionSort by_imported_desc I).mem_iff.mpr hqI, rfl⟩
    · have hlen2 : (List.insertionSort by_importing_desc I).length ≤ 10 := by
        rw [List.length_insertionSort, hlen]
        exact h10
      rw [List.take_of_length_le hlen2]
      exact ⟨_, (List.perm_insertionSort by_importing_desc I).mem_iff.mpr hqI, rfl⟩

/-- Witness for the amended C2 at the counterexample inputs: applying the
theorem at a concrete graph and iteration order. -/
theorem c2_amended_witness :
    List.Sorted by_imported_desc
      (analyze_dependencies cex_files (build_dependency_graph cex_files)
        ["a.py", "b.py", "c.py"] ["c.py", "a.py", "b.py"]).most_imported :=
  (c2_ranking_amended cex_files (build_dependency_graph cex_files)
    ["a.py", "b.py", "c.py"] ["c.py", "a.py", "b.py"]
    (by decide) (by decide) (by decide)).1

/-! ## Python import extraction (C6) -/

theorem visit_step_append (acc : List String) (s : PyImportStmt) :
    (match s with
      | .imp names => visit_Import acc names
      | .imp_from m l ns => visit_ImportFrom acc m l ns) =
      acc ++ (match s with
        | .imp names => visit_Import [] names
        | .imp_from m l ns => visit_ImportFrom [] m l ns) := by
  cases s with
  | imp names => simp [visit_Import]
  | imp_from m lvl ns =>
    cases m with
    | some x => simp [visit_ImportFrom]
    | none =>
      by_cases hl : lvl > 0
      · cases ns with
        | nil => simp [visit_ImportFrom, hl]
        | cons n rest => simp [visit_ImportFrom, hl]
      · simp [visit_ImportFrom, hl]

theorem python_imports_foldl (stmts : List PyImportStmt) :
    ∀ acc : List String,
    stmts.foldl
      (fun imports s =>
        match s with
        | .imp names => visit_Import imports names
        | .imp_from m l ns => visit_ImportFrom imports m l ns)
      acc = acc ++ python_imports stmts := by
  induction stmts with
  | nil => intro acc; simp [python_imports]
  | cons s rest ih =>
    intro acc
    rw [List.foldl_cons, visit_step_append acc s, ih]
    show _ = acc ++ (List.foldl _ [] (s :: rest))
    rw [List.foldl_cons, visit_step_append ([] : List String) s, ih]
    simp [List.append_assoc]

/-- C6: the Python import visitor appends one specifier per imported
symbol-group, statement by statement: `import a, b` yields the two
specifiers `a` and `b`; `from X import ys` yields the single specifier `X`
prefixed by one dot per relative level; and a from-import with no module
name but a positive level yields the dot string followed by the first
imported name. -/
theorem c6_import_extraction :
    (∀ (stmts : List PyImportStmt) (s : PyImportStmt),
      python_imports (stmts ++ [s]) =
        python_imports stmts ++ python_imports [s]) ∧
    (∀ names : List String, python_imports [.imp names] = names) ∧
    (∀ (m : String) (lvl : Nat) (ns : List String),
      python_imports [.imp_from (some m) lvl ns] = [dots lvl ++ m]) ∧
    (∀ (lvl : Nat) (n : String) (ns : List String), 0 < lvl →
      python_imports [.imp_from none lvl (n :: ns)] = [dots lvl ++ n]) := by
  refine ⟨?_, ?_, ?_, ?_⟩
  · intro stmts s
    show List.foldl _ [] (stmts ++ [s]) = _
    rw [List.foldl_append]
    rw [show List.foldl _ [] stmts = python_imports stmts from rfl]
    rw [List.foldl_cons]
    rw [visit_step_append (python_imports stmts) s]
    rfl
  · intro names
    simp [python_imports, visit_Import]
  · intro m lvl ns
    simp [python_imports, visit_ImportFrom]
  · intro lvl n ns hl
    simp [python_imports, visit_ImportFrom, hl]

/-- Witness for C6: `from ..pkg import y`, `import a, b` and
`from . import utils` at concrete inputs, via the theorem. -/
theorem c6_witness :
    python_imports [.imp_from none 1 ["utils", "extra"]] = [".utils"] := by
  have h := c6_import_extraction.2.2.2 1 "utils" ["extra"] (by decide)
  rw [h]
  decide

/-! ## Batch parsing (C7) -/

theorem list_set_self {α : Type} (l : List α) (i : Nat) (h : i < l.length) :
    l.set i l[i] = l := by
  apply List.ext_getElem
  · simp
  · intro n h1 h2
    by_cases hn : n = i
    · subst hn
      simp [List.getElem_set]
    · simp [List.getElem_set, hn]
      exact fun he => absurd he.symm hn

theorem parse_all_files_eq_map :
    ∀ (jobs : List parse_job) (m0 : List (String × FileNode)),
    (∀ j ∈ jobs, containsKey m0 j.path = false) →
    (jobs.map (fun j => j.path)).Nodup →
    jobs.foldl
      (fun m job =>
        match _parse_single_file job with
        | some result => dict_insert m result.path result
        | none => m)
      m0 =
      m0 ++ jobs.map (fun j => (j.path, job_file_node j)) := by
  intro jobs
  induction jobs with
  | nil => intro m0 _ _; simp
  | cons job rest ih =>
    intro m0 hfresh hnd
    rw [List.foldl_cons]
    rw [List.map_cons, List.nodup_cons] at hnd
    have hstep : (match _parse_single_file job with
        | some result => dict_insert m0 result.path result
        | none => m0) =
        m0 ++ [(job.path, job_file_node job)] := by
      show dict_insert m0 job.path (job_file_node job) = _
      unfold dict_insert
      rw [if_neg (by rw [hfresh job (List.mem_cons_self _ _)]; exact Bool.false_ne_true)]
    rw [hstep]
    rw [ih (m0 ++ [(job.path, job_file_node job)]) ?_ hnd.2]
    · rw [List.append_assoc]
      rfl
    · intro j hj
      rw [containsKey, List.any_append]
      have h1 : containsKey m0 j.path = false :=
        hfresh j (List.mem_cons_of_mem _ hj)
      have h2 : job.path ≠ j.path := by
        intro hh
        exact hnd.1 (hh ▸ List.mem_map.mpr ⟨j, hj, rfl⟩)
      rw [containsKey] at h1
      rw [h1]
      simp [beq_iff_eq]
      exact h2

theorem lookup_set_same_key {α : Type} :
    ∀ (l : List (String × α)) (i : Nat) (kv : String × α) (q : String)
      (hi : i < l.length), kv.1 = (l[i]).1 → q ≠ kv.1 →
    List.lookup q (l.set i kv) = List.lookup q l := by
  intro l
  induction l with
  | nil => intro i kv q h; simp at h
  | cons x rest ih =>
    intro i kv q hi hkey hq
    cases i with
    | zero =>
      obtain ⟨k1, v1⟩ := kv
      obtain ⟨kx, vx⟩ := x
      have hk : kx = k1 := by simpa using hkey.symm
      show List.lookup q ((k1, v1) :: rest) = List.lookup q ((kx, vx) :: rest)
      rw [lookup_cons_ne v1 rest hq, lookup_cons_ne vx rest (by rw [hk]; exact hq)]
    | succ n =>
      obtain ⟨kx, vx⟩ := x
      show List.lookup q ((kx, vx) :: rest.set n kv) =
        List.lookup q ((kx, vx) :: rest)
      by_cases hqx : q = kx
      · rw [hqx, lookup_cons_self, lookup_cons_self]
      · rw [lookup_cons_ne vx _ hqx, lookup_cons_ne vx rest hqx]
        exact ih n kv q (by simpa using hi) (by simpa using hkey) hq

/-- C7: injecting a parse failure for one file in a batch (every parse an
embedded total function, so nothing propagates to the caller) leaves the
key set of the result map unchanged, leaves every other file's entry
exactly as in the all-success run, and keeps the failing file in the map
with empty elements and empty imports. -/
theorem c7_soft_failure (jobs : List parse_job) (i : Nat)
    (hi : i < jobs.length)
    (hnd : (jobs.map (fun j => j.path)).Nodup) (msg : String)
    (hok : ∀ j ∈ jobs, ∃ es is, j.outcome = parse_outcome.ok es is) :
    ((_parse_all_files (jobs.set i
        { jobs[i] with outcome := parse_outcome.raised msg })).map Prod.fst =
      (_parse_all_files jobs).map Prod.fst) ∧
    (∀ q, q ≠ jobs[i].path →
      List.lookup q (_parse_all_files (jobs.set i
        { jobs[i] with outcome := parse_outcome.raised msg })) =
      List.lookup q (_parse_all_files jobs)) ∧
    (∃ fn, List.lookup jobs[i].path (_parse_all_files (jobs.set i
        { jobs[i] with outcome := parse_outcome.raised msg })) = some fn ∧
      fn.elements = [] ∧ fn.imports = []) := by
  have _ := hok
  have hpathfail :
      ({ jobs[i] with outcome := parse_outcome.raised msg } : parse_job).path =
      jobs[i].path := rfl
  have hpaths : (jobs.set i
      { jobs[i] with outcome := parse_outcome.raised msg }).map
        (fun j => j.path) = jobs.map (fun j => j.path) := by
    have hlen2 : i < (jobs.map (fun j => j.path)).length := by
      rw [List.length_map]
      exact hi
    rw [List.map_set, hpathfail]
    rw [show jobs[i].path = (jobs.map (fun j => j.path))[i] from
      (List.getElem_map _).symm]
    exact list_set_self _ i hlen2
  have hnd2 : ((jobs.set i
      { jobs[i] with outcome := parse_outcome.raised msg }).map
        (fun j => j.path)).Nodup := by
    rw [hpaths]; exact hnd
  have hmap1 : _parse_all_files jobs =
      jobs.map (fun j => (j.path, job_file_node j)) := by
    have h := parse_all_files_eq_map jobs []
      (fun j _ => rfl) hnd
    simpa [_parse_all_files] using h
  have hmap2 : _parse_all_files (jobs.set i
      { jobs[i] with outcome := parse_outcome.raised msg }) =
      (jobs.set i { jobs[i] with outcome := parse_outcome.raised msg }).map
        (fun j => (j.path, job_file_node j)) := by
    have h := parse_all_files_eq_map
      (jobs.set i { jobs[i] with outcome := parse_outcome.raised msg }) []
      (fun j _ => rfl) hnd2
    simpa [_parse_all_files] using h
  have hset : (jobs.set i
      { jobs[i] with outcome := parse_outcome.raised msg }).map
        (fun j => (j.path, job_file_node j)) =
      (jobs.map (fun j => (j.path, job_file_node j))).set i
        (jobs[i].path, job_file_node
          { jobs[i] with outcome := parse_outcome.raised msg }) := by
    rw [List.map_set]
  refine ⟨?_, ?_, ?_⟩
  · rw [hmap1, hmap2]
    have h1 : ∀ (l : List parse_job),
        (l.map (fun j => (j.path, job_file_node j))).map Prod.fst =
        l.map (fun j => j.path) := by
      intro l
      rw [List.map_map]
      rfl
    rw [h1, h1, hpaths]
  · intro q hq
    rw [hmap1, hmap2, hset]
    exact lookup_set_same_key _ i _ q
      (by rw [List.length_map]; exact hi)
      (by rw [List.getElem_map]) hq
  · refine ⟨job_file_node
      { jobs[i] with outcome := parse_outcome.raised msg }, ?_, rfl, rfl⟩
    rw [hmap2]
    apply lookup_eq_some_of_mem
    · have hmem : ({ jobs[i] with outcome := parse_outcome.raised msg } :
          parse_job) ∈ jobs.set i
            { jobs[i] with outcome := parse_outcome.raised msg } := by
        have hlen : i < (jobs.set i
            { jobs[i] with outcome := parse_outcome.raised msg }).length := by
          rw [List.length_set]
          exact hi
        have h := List.getElem_mem hlen
        rw [List.getElem_set_self hlen] at h
        exact h
      exact List.mem_map.mpr ⟨_, hmem, rfl⟩
    · have h1 : ∀ (l : List parse_job),
          ((l.map (fun j => (j.path, job_file_node j))).map Prod.fst) =
          l.map (fun j => j.path) := by
        intro l
        rw [List.map_map]
        rfl
      rw [h1]
      exact hnd2

/-- Witness for C7: failing the middle job of the three-job batch keeps
`b.py` in the map with empty elements and imports. -/
theorem c7_witness :
    ∃ fn, List.lookup "b.py" (_parse_all_files (c7_jobs.set 1
      { c7_jobs.get ⟨1, by decide⟩ with
        outcome := parse_outcome.raised "boom" })) = some fn ∧
      fn.elements = [] ∧ fn.imports = [] := by
  have h := (c7_soft_failure c7_jobs 1 (by decide) (by decide) "boom"
    (by
      intro j hj
      simp only [c7_jobs, List.mem_cons, List.mem_singleton,
        List.not_mem_nil, or_false] at hj
      rcases hj with rfl | rfl | rfl
      · exact ⟨[], ["./b"], rfl⟩
      · exact ⟨[], [], rfl⟩
      · exact ⟨[], ["react"], rfl⟩)).2.2
  exact h

/-! ## Split/join lemmas for the tree walk (C8) -/

theorem splitOnChar_ne_nil (c : Char) : ∀ l : List Char, splitOnChar c l ≠ [] := by
  intro l
  induction l with
  | nil => simp [splitOnChar]
  | cons x xs ih =>
    simp only [splitOnChar]
    by_cases h : x = c
    · simp [h]
    · simp only [if_neg h]
      cases hr : splitOnChar c xs with
      | nil => exact absurd hr ih
      | cons y ys => simp

theorem splitOnChar_no_sep (c : Char) :
    ∀ l : List Char, (∀ ch ∈ l, ch ≠ c) → splitOnChar c l = [l] := by
  intro l
  induction l with
  | nil => intro _; rfl
  | cons x xs ih =>
    intro h
    have hx : x ≠ c := h x (List.mem_cons_self _ _)
    have hxs := ih (fun ch hch => h ch (List.mem_cons_of_mem _ hch))
    simp only [splitOnChar, if_neg hx, hxs]

theorem splitOnChar_append_sep (c : Char) :
    ∀ (l1 l2 : List Char), (∀ ch ∈ l2, ch ≠ c) →
    splitOnChar c (l1 ++ c :: l2) = splitOnChar c l1 ++ [l2] := by
  intro l1
  induction l1 with
  | nil =>
    intro l2 h2
    simp only [List.nil_append, splitOnChar, if_pos rfl, splitOnChar_no_sep c l2 h2]
    rfl
  | cons x xs ih =>
    intro l2 h2
    simp only [List.cons_append, splitOnChar]
    rw [show xs.append (c :: l2) = xs ++ c :: l2 from rfl, ih l2 h2]
    by_cases hx : x = c
    · simp [hx]
    · rw [if_neg hx, if_neg hx]
      cases hr : splitOnChar c xs with
      | nil => exact absurd hr (splitOnChar_ne_nil c xs)
      | cons y ys => simp

theorem mem_splitOnChar_no_sep (c : Char) :
    ∀ (l : List Char) (seg : List Char), seg ∈ splitOnChar c l → ∀ ch ∈ seg, ch ≠ c := by
  intro l
  induction l with
  | nil =>
    intro seg hseg
    simp [splitOnChar] at hseg
    subst hseg
    intro ch hch
    simp at hch
  | cons x xs ih =>
    intro seg hseg
    simp only [splitOnChar] at hseg
    by_cases hx : x = c
    · rw [if_pos hx] at hseg
      rcases List.mem_cons.mp hseg with h | h
      · subst h; intro ch hch; simp at hch
      · exact ih seg h
    · rw [if_neg hx] at hseg
      cases hr : splitOnChar c xs with
      | nil => exact absurd hr (splitOnChar_ne_nil c xs)
      | cons y ys =>
        rw [hr] at hseg
        rcases List.mem_cons.mp hseg with h | h
        · subst h
          intro ch hch
          rcases List.mem_cons.mp hch with h1 | h1
          · subst h1; exact hx
          · exact ih y (hr ▸ List.mem_cons_self y ys) ch h1
        · exact ih seg (hr ▸ List.mem_cons_of_mem y h)

theorem mk_append (l1 l2 : List Char) :
    String.mk l1 ++ String.mk l2 = String.mk (l1 ++ l2) := by
  apply string_data_inj
  rw [String.data_append]

theorem joinSlash_cons_cons (s y : String) (ys : List String) :
    joinSlash (s :: y :: ys) = s ++ "/" ++ joinSlash (y :: ys) := rfl

theorem slash_data : ("/" : String).data = ['/'] := rfl

theorem joinSlash_map_mk :
    ∀ l : List Char, joinSlash ((splitOnChar '/' l).map String.mk) = String.mk l := by
  intro l
  induction l with
  | nil => rfl
  | cons x xs ih =>
    simp only [splitOnChar]
    by_cases hx : x = '/'
    · rw [if_pos hx]
      cases hr : splitOnChar '/' xs with
      | nil => exact absurd hr (splitOnChar_ne_nil _ xs)
      | cons y ys =>
        rw [hr] at ih
        rw [List.map_cons] at ih
        rw [List.map_cons, List.map_cons]
        rw [joinSlash_cons_cons, ih]
        subst hx
        apply string_data_inj
        rw [String.data_append, String.data_append, slash_data]
        simp
    · rw [if_neg hx]
      cases hr : splitOnChar '/' xs with
      | nil => exact absurd hr (splitOnChar_ne_nil _ xs)
      | cons y ys =>
        rw [hr] at ih
        show joinSlash (List.map String.mk ((x :: y) :: ys)) = String.mk (x :: xs)
        rw [List.map_cons] at ih ⊢
        cases ys with
        | nil =>
          rw [List.map_nil] at ih ⊢
          have hy2 : y = xs := congrArg String.data ih
          show String.mk (x :: y) = String.mk (x :: xs)
          rw [hy2]
        | cons z zs =>
          rw [List.map_cons] at ih ⊢
          rw [joinSlash_cons_cons] at ih ⊢
          apply string_data_inj
          have hdata : y ++ ['/'] ++
              (joinSlash (String.mk z :: zs.map String.mk)).data = xs := by
            have h0 := congrArg String.data ih
            rw [String.data_append, String.data_append, slash_data] at h0
            exact h0
          rw [String.data_append, String.data_append, slash_data]
          show (x :: y) ++ ['/'] ++
            (joinSlash (String.mk z :: zs.map String.mk)).data = x :: xs
          simp only [List.cons_append, List.singleton_append,
            List.append_assoc] at hdata ⊢
          rw [hdata]

theorem joinSlash_splitSlash (s : String) : joinSlash (splitSlash s) = s :=
  joinSlash_map_mk s.data

theorem splitSlash_ne_nil (p : String) : splitSlash p ≠ [] := by
  unfold splitSlash
  intro hh
  cases hso : splitOnChar '/' p.data with
  | nil => exact splitOnChar_ne_nil '/' p.data hso
  | cons a as =>
    rw [hso] at hh
    simp at hh

theorem concat_data (p part : String) :
    (p ++ "/" ++ part).data = p.data ++ '/' :: part.data := by
  rw [String.data_append, String.data_append, slash_data, List.append_assoc]
  rfl

theorem folder_parent_concat (p part : String)
    (hnp : ∀ ch ∈ part.data, ch ≠ '/') :
    folder_parent (p ++ "/" ++ part) = p := by
  unfold folder_parent
  have hsplit : splitSlash (p ++ "/" ++ part) = splitSlash p ++ [part] := by
    unfold splitSlash
    rw [concat_data, splitOnChar_append_sep '/' p.data part.data hnp, List.map_append]
    rfl
  rw [hsplit, List.dropLast_concat]
  cases hsp : splitSlash p with
  | nil => exact absurd hsp (splitSlash_ne_nil p)
  | cons y ys =>
    show joinSlash (y :: ys) = p
    rw [← hsp]
    exact joinSlash_splitSlash p

theorem folder_parent_single (part : String)
    (h : ∀ ch ∈ part.data, ch ≠ '/') :
    folder_parent part = "." := by
  unfold folder_parent
  have hsplit : splitSlash part = [part] := by
    unfold splitSlash
    rw [splitOnChar_no_sep '/' part.data h]
    rfl
  rw [hsplit]
  rfl

theorem concat_slash_ne (p part : String) :
    p ++ "/" ++ part ≠ "." ∧ p ++ "/" ++ part ≠ "" := by
  have hmem : '/' ∈ (p ++ "/" ++ part).data := by
    rw [concat_data]
    exact List.mem_append.mpr (Or.inr (List.mem_cons_self _ _))
  constructor
  · intro h
    rw [h] at hmem
    have : '/' ∈ ['.'] := hmem
    simp at this
  · intro h
    rw [h] at hmem
    have : '/' ∈ ([] : List Char) := hmem
    simp at this

/-! ## FolderMap operation lemmas (C8) -/

theorem lookup_append {α : Type} :
    ∀ (l1 l2 : List (String × α)) (k : String),
    List.lookup k (l1 ++ l2) =
      (match List.lookup k l1 with
       | some v => some v
       | none => List.lookup k l2) := by
  intro l1
  induction l1 with
  | nil => intro l2 k; rfl
  | cons kv rest ih =>
    intro l2 k
    obtain ⟨k2, v2⟩ := kv
    by_cases h : k = k2
    · subst h
      rw [List.cons_append, lookup_cons_self, lookup_cons_self]
    · rw [List.cons_append, lookup_cons_ne v2 _ h, lookup_cons_ne v2 rest h, ih]

theorem children_at_append_new (fm : FolderMap) (k : String)
    (hk : k ∉ fm.map Prod.fst) : children_at (fm ++ [(k, [])]) k = [] := by
  unfold children_at
  rw [lookup_append, lookup_eq_none_of_not_mem hk, lookup_cons_self]
  rfl

theorem children_at_append_old (fm : FolderMap) (q knew : String)
    (h : q ≠ knew) : children_at (fm ++ [(knew, [])]) q = children_at fm q := by
  unfold children_at
  rw [lookup_append]
  cases hl : List.lookup q fm with
  | some v => rfl
  | none =>
    rw [lookup_cons_ne [] [] h]
    rfl

theorem keys_append_child (fm : FolderMap) (k : String) (c : Child) :
    (append_child fm k c).map Prod.fst = fm.map Prod.fst := by
  unfold append_child
  rw [List.map_map]
  apply List.map_congr_left
  intro kv _
  by_cases h : kv.1 = k
  · simp [h]
  · simp [h]

theorem append_child_absent (fm : FolderMap) (k : String) (c : Child)
    (hk : k ∉ fm.map Prod.fst) : append_child fm k c = fm := by
  unfold append_child
  induction fm with
  | nil => rfl
  | cons kv rest ih =>
    rw [List.map_cons] at hk
    have h1 : kv.1 ≠ k := fun hh => hk (List.mem_cons.mpr (Or.inl hh.symm))
    have h2 : k ∉ rest.map Prod.fst := fun hh => hk (List.mem_cons.mpr (Or.inr hh))
    rw [List.map_cons, if_neg h1, ih h2]

theorem children_at_append_child_other (fm : FolderMap) (k : String)
    (c : Child) (q : String) (hq : q ≠ k) :
    children_at (append_child fm k c) q = children_at fm q := by
  induction fm with
  | nil => rfl
  | cons kv rest ih =>
    obtain ⟨k0, cs⟩ := kv
    show children_at ((if k0 = k then (k0, cs ++ [c]) else (k0, cs)) ::
      append_child rest k c) q = children_at ((k0, cs) :: rest) q
    by_cases h0 : k0 = k
    · rw [if_pos h0]
      have hq0 : q ≠ k0 := fun hh => hq (hh.trans h0)
      unfold children_at
      rw [lookup_cons_ne _ _ hq0, lookup_cons_ne _ _ hq0]
      exact ih
    · rw [if_neg h0]
      by_cases hq0 : q = k0
      · subst hq0
        unfold children_at
        rw [lookup_cons_self, lookup_cons_self]
      · unfold children_at
        rw [lookup_cons_ne _ _ hq0, lookup_cons_ne _ _ hq0]
        exact ih

theorem children_at_append_child_self (fm : FolderMap) (k : String) (c : Child)
    (hk : k ∈ fm.map Prod.fst) :
    children_at (append_child fm k c) k = children_at fm k ++ [c] := by
  induction fm with
  | nil => simp at hk
  | cons kv rest ih =>
    obtain ⟨k0, cs⟩ := kv
    show children_at ((if k0 = k then (k0, cs ++ [c]) else (k0, cs)) ::
      append_child rest k c) k = children_at ((k0, cs) :: rest) k ++ [c]
    by_cases h0 : k0 = k
    · subst h0
      rw [if_pos rfl]
      unfold children_at
      rw [lookup_cons_self, lookup_cons_self]
      rfl
    · rw [if_neg h0]
      have hk0 : k ≠ k0 := fun hh => h0 hh.symm
      unfold children_at
      rw [lookup_cons_ne _ _ hk0, lookup_cons_ne _ _ hk0]
      have hkrest : k ∈ rest.map Prod.fst := by
        rw [List.map_cons] at hk
        rcases List.mem_cons.mp hk with h | h
        · exact absurd h.symm h0
        · exact h
      exact ih hkrest

theorem occurrences_cons (k0 : String) (cs : List Child) (rest : FolderMap)
    (c : Child) :
    occurrences ((k0, cs) :: rest) c = cs.count c + occurrences rest c := rfl

theorem occurrences_append (fm1 fm2 : FolderMap) (c : Child) :
    occurrences (fm1 ++ fm2) c = occurrences fm1 c + occurrences fm2 c := by
  unfold occurrences
  rw [List.map_append, List.sum_append]

theorem occurrences_new_key (k : String) (c : Child) :
    occurrences [(k, [])] c = 0 := rfl

theorem count_singleton_child (c c2 : Child) :
    ([c] : List Child).count c2 = if c2 = c then 1 else 0 := by
  by_cases h : c2 = c
  · simp [h]
  · simp [List.count_singleton', h]


theorem occurrences_append_child (fm : FolderMap) (k : String) (c c2 : Child)
    (hnd : (fm.map Prod.fst).Nodup) :
    occurrences (append_child fm k c) c2 =
      occurrences fm c2 + (if k ∈ fm.map Prod.fst ∧ c2 = c then 1 else 0) := by
  induction fm with
  | nil => simp [append_child, occurrences]
  | cons kv rest ih =>
    obtain ⟨k0, cs⟩ := kv
    rw [List.map_cons, List.nodup_cons] at hnd
    show occurrences ((if k0 = k then (k0, cs ++ [c]) else (k0, cs)) ::
      append_child rest k c) c2 =
      occurrences ((k0, cs) :: rest) c2 + _
    by_cases h0 : k0 = k
    · subst h0
      rw [if_pos rfl]
      rw [append_child_absent rest k0 c hnd.1]
      rw [occurrences_cons, occurrences_cons, List.count_append,
        count_singleton_child]
      have hkmem : k0 ∈ List.map Prod.fst ((k0, cs) :: rest) := by
        rw [List.map_cons]
        exact List.mem_cons_self _ _
      by_cases hc : c2 = c
      · rw [if_pos hc, if_pos ⟨hkmem, hc⟩]
        omega
      · rw [if_neg hc, if_neg (fun hh => hc hh.2)]
        omega
    · rw [if_neg h0]
      rw [occurrences_cons, occurrences_cons, ih hnd.2]
      have hmemiff : k ∈ List.map Prod.fst ((k0, cs) :: rest) ↔
          k ∈ List.map Prod.fst rest := by
        rw [List.map_cons]
        constructor
        · intro h
          rcases List.mem_cons.mp h with h | h
          · exact absurd h.symm h0
          · exact h
        · intro h
          exact List.mem_cons.mpr (Or.inr h)
      by_cases hk : k ∈ List.map Prod.fst rest
      · by_cases hc : c2 = c
        · rw [if_pos ⟨hk, hc⟩, if_pos ⟨hmemiff.mpr hk, hc⟩]
          omega
        · rw [if_neg (fun hh => hc hh.2), if_neg (fun hh => hc hh.2)]
          omega
      · rw [if_neg (fun hh => hk hh.1),
          if_neg (fun hh => hk (hmemiff.mp hh.1))]
        omega

theorem splitSlash_seg_no_slash (s : String) :
    ∀ seg ∈ splitSlash s, ∀ ch ∈ seg.data, ch ≠ '/' := by
  intro seg hseg
  unfold splitSlash at hseg
  rcases List.mem_map.mp hseg with ⟨l, hl, he⟩
  rw [← he]
  exact mem_splitOnChar_no_sep '/' s.data l hl

theorem children_at_of_not_mem (fm : FolderMap) (k : String)
    (h : k ∉ fm.map Prod.fst) : children_at fm k = [] := by
  unfold children_at
  rw [lookup_eq_none_of_not_mem h]
  rfl

theorem walk_steps_acc :
    ∀ (segs : List String) (st : String × List (String × String)),
    (segs.foldl
      (fun (st : String × List (String × String)) part =>
        let np := if st.1 = "." then part else st.1 ++ "/" ++ part
        (np, st.2 ++ [(st.1, np)]))
      st) =
    (segs.foldl (fun cc part => if cc = "." then part else cc ++ "/" ++ part) st.1,
     st.2 ++ walk_steps st.1 segs) := by
  intro segs
  induction segs with
  | nil => intro st; simp [walk_steps]
  | cons part rest ih =>
    intro st
    rw [List.foldl_cons, ih]
    have h1 : ((fun (st : String × List (String × String)) part =>
        let np := if st.1 = "." then part else st.1 ++ "/" ++ part
        (np, st.2 ++ [(st.1, np)])) st part).1 =
        (if st.1 = "." then part else st.1 ++ "/" ++ part) := rfl
    have h2 : ((fun (st : String × List (String × String)) part =>
        let np := if st.1 = "." then part else st.1 ++ "/" ++ part
        (np, st.2 ++ [(st.1, np)])) st part).2 =
        st.2 ++ [(st.1, if st.1 = "." then part else st.1 ++ "/" ++ part)] := rfl
    rw [h1, h2]
    have hws : walk_steps st.1 (part :: rest) =
        (st.1, if st.1 = "." then part else st.1 ++ "/" ++ part) ::
        walk_steps (if st.1 = "." then part else st.1 ++ "/" ++ part) rest := by
      show (List.foldl _ (st.1, []) (part :: rest)).2 = _
      rw [List.foldl_cons, ih]
      rfl
    rw [hws, List.foldl_cons]
    simp [List.append_assoc]

theorem walk_steps_cons (cur part : String) (rest : List String) :
    walk_steps cur (part :: rest) =
      (cur, if cur = "." then part else cur ++ "/" ++ part) ::
      walk_steps (if cur = "." then part else cur ++ "/" ++ part) rest := by
  show (List.foldl _ (cur, []) (part :: rest)).2 = _
  rw [List.foldl_cons, walk_steps_acc]
  rfl

theorem create_folder_spec (fm : FolderMap) (cur np : String)
    (hinv : folders_inv fm) (hcur : cur ∈ fm.map Prod.fst)
    (hnp : np ∉ fm.map Prod.fst) (hnpdot : np ≠ ".")
    (hpar : folder_parent np = cur) :
    folders_inv (create_folder fm cur np) ∧
    (create_folder fm cur np).map Prod.fst = fm.map Prod.fst ++ [np] ∧
    (∀ f : FileNode, occurrences (create_folder fm cur np) (Child.file f) =
      occurrences fm (Child.file f)) ∧
    (∀ q c2, c2 ∈ children_at fm q →
      c2 ∈ children_at (create_folder fm cur np) q) ∧
    Child.folderRef np ∈ children_at (create_folder fm cur np) cur := by
  obtain ⟨hnodup, hroot, hfold, habsent⟩ := hinv
  have hXkeys : (fm ++ [(np, [])]).map Prod.fst = fm.map Prod.fst ++ [np] := by
    rw [List.map_append]
    rfl
  have hXnodup : ((fm ++ [(np, [])]).map Prod.fst).Nodup := by
    rw [hXkeys]
    refine List.Nodup.append hnodup (List.nodup_singleton np) ?_
    intro a ha hb
    rw [List.mem_singleton] at hb
    exact hnp (hb ▸ ha)
  have hkeys : (create_folder fm cur np).map Prod.fst =
      fm.map Prod.fst ++ [np] := by
    unfold create_folder
    rw [keys_append_child, hXkeys]
  have hcurX : cur ∈ (fm ++ [(np, [])]).map Prod.fst := by
    rw [hXkeys]
    exact List.mem_append.mpr (Or.inl hcur)
  have hcurne : cur ≠ np := fun hh => hnp (hh ▸ hcur)
  have hocc : ∀ c2 : Child, occurrences (create_folder fm cur np) c2 =
      occurrences fm c2 + (if c2 = Child.folderRef np then 1 else 0) := by
    intro c2
    unfold create_folder
    rw [occurrences_append_child _ _ _ _ hXnodup, occurrences_append,
      occurrences_new_key]
    by_cases hc : c2 = Child.folderRef np
    · rw [if_pos ⟨hcurX, hc⟩, if_pos hc]
    · rw [if_neg (fun hh => hc hh.2), if_neg hc]
  have hchild_cur : children_at (create_folder fm cur np) cur =
      children_at fm cur ++ [Child.folderRef np] := by
    unfold create_folder
    rw [children_at_append_child_self _ _ _ hcurX]
    rw [children_at_append_old fm cur np hcurne]
  have hmono : ∀ q c2, c2 ∈ children_at fm q →
      c2 ∈ children_at (create_folder fm cur np) q := by
    intro q c2 hc
    by_cases hqnp : q = np
    · rw [hqnp, children_at_of_not_mem fm np hnp] at hc
      simp at hc
    · by_cases hqcur : q = cur
      · rw [hqcur] at hc ⊢
        rw [hchild_cur]
        exact List.mem_append.mpr (Or.inl hc)
      · unfold create_folder
        rw [children_at_append_child_other _ _ _ _ hqcur,
          children_at_append_old fm q np hqnp]
        exact hc
  have hrefmem : Child.folderRef np ∈ children_at (create_folder fm cur np) cur := by
    rw [hchild_cur]
    exact List.mem_append.mpr (Or.inr (List.mem_singleton.mpr rfl))
  refine ⟨⟨?_, ?_, ?_, ?_⟩, hkeys, ?_, hmono, hrefmem⟩
  · rw [hkeys]
    refine List.Nodup.append hnodup (List.nodup_singleton np) ?_
    intro a ha hb
    rw [List.mem_singleton] at hb
    exact hnp (hb ▸ ha)
  · rw [hkeys]
    exact List.mem_append.mpr (Or.inl hroot)
  · intro k hk hkdot
    rw [hkeys] at hk
    rcases List.mem_append.mp hk with hkfm | hknp
    · have hkne : k ≠ np := fun hh => hnp (hh ▸ hkfm)
      have h3 := hfold k hkfm hkdot
      constructor
      · rw [hocc, if_neg (fun hh => hkne (Child.folderRef.inj hh)), h3.1]
      · exact hmono _ _ h3.2
    · rw [List.mem_singleton] at hknp
      subst hknp
      constructor
      · rw [hocc, if_pos rfl, habsent k hnp]
      · rw [hpar]
        exact hrefmem
  · intro k hk
    rw [hkeys] at hk
    have hk1 : k ∉ fm.map Prod.fst :=
      fun hh => hk (List.mem_append.mpr (Or.inl hh))
    have hk2 : k ≠ np :=
      fun hh => hk (List.mem_append.mpr (Or.inr (List.mem_singleton.mpr hh)))
    rw [hocc, habsent k hk1,
      if_neg (fun hh => hk2 (Child.folderRef.inj hh))]
  · intro f
    rw [hocc]
    simp

theorem lookup_ne_none_of_mem {α : Type} {m : List (String × α)} {k : String}
    (h : k ∈ m.map Prod.fst) : List.lookup k m ≠ none := by
  induction m with
  | nil => simp at h
  | cons kv rest ih =>
    obtain ⟨k2, v2⟩ := kv
    by_cases hk : k = k2
    · subst hk
      rw [lookup_cons_self]
      simp
    · rw [lookup_cons_ne v2 rest hk]
      rw [List.map_cons, List.mem_cons] at h
      rcases h with h | h
      · exact absurd h hk
      · exact ih h

theorem walk_step_eq (fm : FolderMap) (cur part np : String)
    (h : np = if cur = "." then part else cur ++ "/" ++ part) :
    walk_step (fm, cur) part =
      if containsKey fm np then (fm, np)
      else (create_folder fm cur np, np) := by
  subst h
  rfl

theorem walk_steps_parent :
    ∀ (segs : List String) (cur : String),
    (∀ seg ∈ segs, seg ≠ "." ∧ ∀ ch ∈ seg.data, ch ≠ '/') →
    ∀ pr ∈ walk_steps cur segs, folder_parent pr.2 = pr.1 ∧ pr.2 ≠ "." := by
  intro segs
  induction segs with
  | nil =>
    intro cur _ pr hpr
    simp [walk_steps] at hpr
  | cons part rest ih =>
    intro cur hwf pr hpr
    have hwfp := hwf part (List.mem_cons_self _ _)
    have hwfr : ∀ seg ∈ rest, seg ≠ "." ∧ ∀ ch ∈ seg.data, ch ≠ '/' :=
      fun seg hs => hwf seg (List.mem_cons.mpr (Or.inr hs))
    rw [walk_steps_cons] at hpr
    rcases List.mem_cons.mp hpr with h | h
    · subst h
      by_cases hc : cur = "."
      · rw [if_pos hc]
        refine ⟨?_, hwfp.1⟩
        rw [folder_parent_single part hwfp.2, hc]
      · rw [if_neg hc]
        exact ⟨folder_parent_concat cur part hwfp.2,
               (concat_slash_ne cur part).1⟩
    · exact ih _ hwfr pr h

/-- Invariants of the inner `for part in parts[:-1]` walk: the structural
invariant is preserved, file occurrences and existing children are kept,
folder keys only grow, the final current path is the pure accumulation of
the segments and is a key, and every folder key the walk passes through is
a key of the resulting map. -/
theorem walk_spec :
    ∀ (segs : List String) (fm : FolderMap) (cur : String),
    folders_inv fm → cur ∈ fm.map Prod.fst →
    (∀ seg ∈ segs, seg ≠ "." ∧ ∀ ch ∈ seg.data, ch ≠ '/') →
    folders_inv (segs.foldl walk_step (fm, cur)).1 ∧
    (∀ f : FileNode,
      occurrences (segs.foldl walk_step (fm, cur)).1 (Child.file f) =
        occurrences fm (Child.file f)) ∧
    (∀ q c2, c2 ∈ children_at fm q →
      c2 ∈ children_at (segs.foldl walk_step (fm, cur)).1 q) ∧
    (∀ k ∈ fm.map Prod.fst,
      k ∈ (segs.foldl walk_step (fm, cur)).1.map Prod.fst) ∧
    (segs.foldl walk_step (fm, cur)).2 ∈
      (segs.foldl walk_step (fm, cur)).1.map Prod.fst ∧
    (segs.foldl walk_step (fm, cur)).2 =
      segs.foldl (fun c part => if c = "." then part else c ++ "/" ++ part) cur ∧
    (∀ pr ∈ walk_steps cur segs,
      pr.2 ∈ (segs.foldl walk_step (fm, cur)).1.map Prod.fst) := by
  intro segs
  induction segs with
  | nil =>
    intro fm cur hinv hcur _
    refine ⟨hinv, fun f => rfl, fun q c2 hc => hc, fun k hk => hk, hcur,
      rfl, ?_⟩
    intro pr hpr
    simp [walk_steps] at hpr
  | cons part rest ih =>
    intro fm cur hinv hcur hwf
    have hwfp := hwf part (List.mem_cons_self _ _)
    have hwfr : ∀ seg ∈ rest, seg ≠ "." ∧ ∀ ch ∈ seg.data, ch ≠ '/' :=
      fun seg hs => hwf seg (List.mem_cons.mpr (Or.inr hs))
    simp only [List.foldl_cons]
    rw [walk_step_eq fm cur part
      (if cur = "." then part else cur ++ "/" ++ part) rfl,
      walk_steps_cons]
    set np := if cur = "." then part else cur ++ "/" ++ part with hnp
    have hnpdot : np ≠ "." := by
      rw [hnp]
      by_cases hc : cur = "."
      · rw [if_pos hc]
        exact hwfp.1
      · rw [if_neg hc]
        exact (concat_slash_ne cur part).1
    have hpar : folder_parent np = cur := by
      rw [hnp]
      by_cases hc : cur = "."
      · rw [if_pos hc, folder_parent_single part hwfp.2, hc]
      · rw [if_neg hc]
        exact folder_parent_concat cur part hwfp.2
    by_cases hmem : containsKey fm np = true
    · rw [if_pos hmem]
      have hnpkeys : np ∈ fm.map Prod.fst := (containsKey_iff fm np).mp hmem
      obtain ⟨h1, h2, h3, h4, h5, h6, h7⟩ := ih fm np hinv hnpkeys hwfr
      refine ⟨h1, h2, h3, h4, h5, h6, ?_⟩
      intro pr hpr
      rcases List.mem_cons.mp hpr with h | h
      · subst h
        exact h4 np hnpkeys
      · exact h7 pr h
    · rw [if_neg hmem]
      have hnpmem : np ∉ fm.map Prod.fst :=
        fun hh => hmem ((containsKey_iff fm np).mpr hh)
      obtain ⟨cinv, ckeys, cfiles, cmono, _⟩ :=
        create_folder_spec fm cur np hinv hcur hnpmem hnpdot hpar
      have hnpg : np ∈ (create_folder fm cur np).map Prod.fst := by
        rw [ckeys]
        exact List.mem_append.mpr (Or.inr (List.mem_singleton.mpr rfl))
      obtain ⟨h1, h2, h3, h4, h5, h6, h7⟩ :=
        ih (create_folder fm cur np) np cinv hnpg hwfr
      refine ⟨h1, fun f => (h2 f).trans (cfiles f),
        fun q c2 hc => h3 q c2 (cmono q c2 hc), ?_, h5, h6, ?_⟩
      · intro k hk
        refine h4 k ?_
        rw [ckeys]
        exact List.mem_append.mpr (Or.inl hk)
      · intro pr hpr
        rcases List.mem_cons.mp hpr with h | h
        · subst h
          exact h4 np hnpg
        · exact h7 pr h

theorem children_at_append_child_mono (fm : FolderMap) (k : String) (c : Child)
    (q : String) (c2 : Child) (hc : c2 ∈ children_at fm q) :
    c2 ∈ children_at (append_child fm k c) q := by
  by_cases hq : q = k
  · by_cases hk : k ∈ fm.map Prod.fst
    · rw [hq, children_at_append_child_self fm k c hk]
      exact List.mem_append.mpr (Or.inl (hq ▸ hc))
    · rw [append_child_absent fm k c hk]
      exact hc
  · rw [children_at_append_child_other fm k c q hq]
    exact hc

/-- Appending a file child anywhere preserves the structural invariant:
file children never carry folder references. -/
theorem folders_inv_append_file (fm : FolderMap) (k : String) (f : FileNode)
    (hinv : folders_inv fm) : folders_inv (append_child fm k (Child.file f)) := by
  obtain ⟨hnd, hroot, h3, h4⟩ := hinv
  refine ⟨by rw [keys_append_child]; exact hnd,
          by rw [keys_append_child]; exact hroot, ?_, ?_⟩
  · intro q hq hqdot
    rw [keys_append_child] at hq
    have hh := h3 q hq hqdot
    constructor
    · rw [occurrences_append_child fm k _ _ hnd,
        if_neg (fun hc => Child.noConfusion hc.2), Nat.add_zero]
      exact hh.1
    · exact children_at_append_child_mono fm k _ (folder_parent q) _ hh.2
  · intro q hq
    rw [keys_append_child] at hq
    rw [occurrences_append_child fm k _ _ hnd,
      if_neg (fun hc => Child.noConfusion hc.2), Nat.add_zero]
    exact h4 q hq

/-- Effect of one body of the outer loop (`add_file`): the invariant is
preserved, keys and children only grow, exactly one occurrence of the
file child is added, the file lands in the folder of its directory key,
and every folder key on its ancestor chain is a key of the result. -/
theorem add_file_spec (fm : FolderMap) (p : String) (node : FileNode)
    (hinv : folders_inv fm)
    (hwf : ∀ seg ∈ (splitSlash p).dropLast,
      seg ≠ "." ∧ ∀ ch ∈ seg.data, ch ≠ '/') :
    folders_inv (add_file fm p node) ∧
    (∀ k ∈ fm.map Prod.fst, k ∈ (add_file fm p node).map Prod.fst) ∧
    (∀ q c2, c2 ∈ children_at fm q →
      c2 ∈ children_at (add_file fm p node) q) ∧
    (∀ f : FileNode, occurrences (add_file fm p node) (Child.file f) =
      occurrences fm (Child.file f) + (if f = node then 1 else 0)) ∧
    Child.file node ∈ children_at (add_file fm p node) (dir_key p) ∧
    (∀ pr ∈ ancestor_steps p, pr.2 ∈ (add_file fm p node).map Prod.fst) := by
  have hdk : dir_key p = ((splitSlash p).dropLast.foldl
      (fun c part => if c = "." then part else c ++ "/" ++ part) ".") := rfl
  obtain ⟨w1, w2, w3, w4, w5, w6, w7⟩ :=
    walk_spec ((splitSlash p).dropLast) fm "." hinv hinv.2.1 hwf
  set w := (splitSlash p).dropLast.foldl walk_step (fm, ".") with hw
  have hadd : add_file fm p node = append_child w.1 w.2 (Child.file node) := by
    rw [hw]
    rfl
  have hdk2 : dir_key p = w.2 := hdk.trans w6.symm
  rw [hadd]
  refine ⟨folders_inv_append_file w.1 w.2 node w1, ?_, ?_, ?_, ?_, ?_⟩
  · intro k hk
    rw [keys_append_child]
    exact w4 k hk
  · intro q c2 hc
    exact children_at_append_child_mono w.1 w.2 _ q c2 (w3 q c2 hc)
  · intro f
    rw [occurrences_append_child w.1 w.2 _ _ w1.1, w2 f]
    by_cases hf : f = node
    · rw [if_pos ⟨w5, by rw [hf]⟩, if_pos hf]
    · rw [if_neg (fun hh => hf (Child.file.inj hh.2)), if_neg hf]
  · rw [hdk2, children_at_append_child_self w.1 w.2 _ w5]
    exact List.mem_append.mpr (Or.inr (List.mem_singleton.mpr rfl))
  · intro pr hpr
    rw [keys_append_child]
    exact w7 pr hpr

/-- Invariant of the outer `for file_path_str in sorted_paths` fold: the
structural invariant is preserved, keys and children only grow, files not
scheduled keep their occurrence count, and every scheduled file ends with
exactly one occurrence, sitting in its directory folder, with its whole
ancestor chain present as folder keys. -/
theorem tree_fold_spec (m : List (String × FileNode))
    (hpaths : ∀ kv ∈ m, kv.2.path = kv.1) :
    ∀ (paths : List String) (fm : FolderMap),
    folders_inv fm →
    (∀ p ∈ paths, ∀ seg ∈ (splitSlash p).dropLast,
      seg ≠ "." ∧ ∀ ch ∈ seg.data, ch ≠ '/') →
    paths.Nodup →
    (∀ p ∈ paths, ∀ node : FileNode, node.path = p →
      occurrences fm (Child.file node) = 0) →
    folders_inv (paths.foldl (tree_step m) fm) ∧
    (∀ k ∈ fm.map Prod.fst,
      k ∈ (paths.foldl (tree_step m) fm).map Prod.fst) ∧
    (∀ q c2, c2 ∈ children_at fm q →
      c2 ∈ children_at (paths.foldl (tree_step m) fm) q) ∧
    (∀ f : FileNode, f.path ∉ paths →
      occurrences (paths.foldl (tree_step m) fm) (Child.file f) =
        occurrences fm (Child.file f)) ∧
    (∀ p ∈ paths, ∀ node, List.lookup p m = some node →
      occurrences (paths.foldl (tree_step m) fm) (Child.file node) = 1 ∧
      Child.file node ∈ children_at (paths.foldl (tree_step m) fm) (dir_key p) ∧
      ∀ pr ∈ ancestor_steps p,
        pr.2 ∈ (paths.foldl (tree_step m) fm).map Prod.fst) := by
  intro paths
  induction paths with
  | nil =>
    intro fm hinv _ _ _
    exact ⟨hinv, fun k hk => hk, fun q c2 hc => hc, fun f _ => rfl,
      fun p hp => absurd hp (List.not_mem_nil p)⟩
  | cons p rest ih =>
    intro fm hinv hwf hnd hzero
    rw [List.nodup_cons] at hnd
    have hwfr : ∀ q ∈ rest, ∀ seg ∈ (splitSlash q).dropLast,
        seg ≠ "." ∧ ∀ ch ∈ seg.data, ch ≠ '/' :=
      fun q hq => hwf q (List.mem_cons.mpr (Or.inr hq))
    simp only [List.foldl_cons]
    cases hl : List.lookup p m with
    | none =>
      have hstep : tree_step m fm p = fm := by
        unfold tree_step
        rw [hl]
      rw [hstep]
      have hzeror : ∀ q ∈ rest, ∀ node : FileNode, node.path = q →
          occurrences fm (Child.file node) = 0 :=
        fun q hq => hzero q (List.mem_cons.mpr (Or.inr hq))
      obtain ⟨i1, i2, i3, i4, i5⟩ := ih fm hinv hwfr hnd.2 hzeror
      refine ⟨i1, i2, i3, ?_, ?_⟩
      · intro f hf
        exact i4 f (fun hh => hf (List.mem_cons.mpr (Or.inr hh)))
      · intro q hq node hnode
        rcases List.mem_cons.mp hq with h | h
        · subst h
          rw [hl] at hnode
          exact absurd hnode (by simp)
        · exact i5 q h node hnode
    | some node =>
      have hstep : tree_step m fm p = add_file fm p node := by
        unfold tree_step
        rw [hl]
      rw [hstep]
      have hnodepath : node.path = p := hpaths (p, node) (mem_of_lookup_eq_some hl)
      obtain ⟨a1, a2, a3, a4, a5, a6⟩ :=
        add_file_spec fm p node hinv (hwf p (List.mem_cons_self _ _))
      have hzeror : ∀ q ∈ rest, ∀ node2 : FileNode, node2.path = q →
          occurrences (add_file fm p node) (Child.file node2) = 0 := by
        intro q hq node2 hnode2
        rw [a4 node2]
        have hne : node2 ≠ node := by
          intro hh
          rw [hh, hnodepath] at hnode2
          exact hnd.1 (hnode2 ▸ hq)
        rw [if_neg hne, Nat.add_zero]
        exact hzero q (List.mem_cons.mpr (Or.inr hq)) node2 hnode2
      obtain ⟨i1, i2, i3, i4, i5⟩ := ih (add_file fm p node) a1 hwfr hnd.2 hzeror
      refine ⟨i1, fun k hk => i2 k (a2 k hk),
        fun q c2 hc => i3 q c2 (a3 q c2 hc), ?_, ?_⟩
      · intro f hf
        have hf1 : f ≠ node := by
          intro hh
          exact hf (hh ▸ hnodepath ▸ List.mem_cons_self p rest)
        have hf2 : f.path ∉ rest := fun hh => hf (List.mem_cons.mpr (Or.inr hh))
        rw [i4 f hf2, a4 f, if_neg hf1, Nat.add_zero]
      · intro q hq node2 hnode2
        rcases List.mem_cons.mp hq with h | h
        · subst h
          rw [hl] at hnode2
          have hn2 : node2 = node := (Option.some.inj hnode2).symm
          subst hn2
          have hnotin : node2.path ∉ rest := by
            rw [hnodepath]
            exact hnd.1
          refine ⟨?_, i3 _ _ a5, fun pr hpr => i2 pr.2 (a6 pr hpr)⟩
          rw [i4 node2 hnotin, a4 node2, if_pos rfl,
            hzero q (List.mem_cons_self _ _) node2 hnodepath]
        · exact i5 q h node2 hnode2

theorem walk_steps_link :
    ∀ (segs : List String) (cur : String),
    (walk_steps cur segs).map Prod.fst =
      (cur :: (walk_steps cur segs).map Prod.snd).dropLast := by
  intro segs
  induction segs with
  | nil => intro cur; rfl
  | cons part rest ih =>
    intro cur
    rw [walk_steps_cons, List.map_cons, List.map_cons]
    show cur :: _ = (cur :: _ :: _).dropLast
    rw [List.dropLast_cons₂]
    exact congrArg (cur :: ·) (ih _)

theorem walk_steps_getLastD :
    ∀ (segs : List String) (cur : String),
    ((walk_steps cur segs).map Prod.snd).getLastD cur =
      segs.foldl (fun c part => if c = "." then part else c ++ "/" ++ part) cur := by
  intro segs
  induction segs with
  | nil => intro cur; rfl
  | cons part rest ih =>
    intro cur
    rw [walk_steps_cons, List.map_cons, List.getLastD_cons, List.foldl_cons]
    exact ih _

theorem folders_inv_init : folders_inv [(".", [])] := by
  refine ⟨by simp, by simp, ?_, ?_⟩
  · intro k hk hkdot
    simp at hk
    exact absurd hk hkdot
  · intro k _
    rfl

theorem lookup_perm {α : Type} {m1 m2 : List (String × α)} (hperm : m1.Perm m2)
    (hnd : (m1.map Prod.fst).Nodup) (k : String) :
    List.lookup k m1 = List.lookup k m2 := by
  have hnd2 : (m2.map Prod.fst).Nodup := ((hperm.map Prod.fst).nodup_iff).mp hnd
  cases hl : List.lookup k m1 with
  | some v =>
    exact (lookup_eq_some_of_mem
      (hperm.mem_iff.mp (mem_of_lookup_eq_some hl)) hnd2).symm
  | none =>
    cases hl2 : List.lookup k m2 with
    | none => rfl
    | some v =>
      have hm : (k, v) ∈ m1 := hperm.mem_iff.mpr (mem_of_lookup_eq_some hl2)
      have hs := lookup_eq_some_of_mem hm hnd
      rw [hl] at hs
      exact absurd hs (by simp)

theorem foldl_congr_fun {α β : Type} (f g : α → β → α)
    (h : ∀ a b, f a b = g a b) :
    ∀ (l : List β) (a : α), l.foldl f a = l.foldl g a := by
  intro l
  induction l with
  | nil => intro a; rfl
  | cons b bs ih =>
    intro a
    rw [List.foldl_cons, List.foldl_cons, h, ih]

/-- C8: `build_file_tree` is a deterministic function of the flat file
map — any two insertion orders of the same map assemble the same tree —
and in the result the folder keys are unique, every non-root folder
carries exactly one incoming reference across the whole tree and that
reference is held by its parent folder (each intermediate folder is
created once and then reused), and every file of the map occurs in
exactly one File child, sitting in the folder of its directory key,
whose ancestor chain starts at the root `"."`, links each folder to its
parent, ends at the directory key, and consists of folders each present
as a child of its parent. -/
theorem c8_file_tree (m1 m2 : List (String × FileNode))
    (hperm : m1.Perm m2)
    (hnd : (m1.map Prod.fst).Nodup)
    (hpaths : ∀ kv ∈ m1, kv.2.path = kv.1)
    (hwf : ∀ kv ∈ m1, ∀ seg ∈ (splitSlash kv.1).dropLast, seg ≠ ".") :
    build_file_tree m1 = build_file_tree m2 ∧
    ((build_file_tree m1).map Prod.fst).Nodup ∧
    (∀ k ∈ (build_file_tree m1).map Prod.fst, k ≠ "." →
      occurrences (build_file_tree m1) (Child.folderRef k) = 1 ∧
      Child.folderRef k ∈ children_at (build_file_tree m1) (folder_parent k)) ∧
    (∀ p node, List.lookup p m1 = some node →
      occurrences (build_file_tree m1) (Child.file node) = 1 ∧
      Child.file node ∈ children_at (build_file_tree m1) (dir_key p) ∧
      (∀ pr ∈ ancestor_steps p,
        Child.folderRef pr.2 ∈ children_at (build_file_tree m1) pr.1) ∧
      (ancestor_steps p).map Prod.fst =
        ("." :: (ancestor_steps p).map Prod.snd).dropLast ∧
      ((ancestor_steps p).map Prod.snd).getLastD "." = dir_key p) := by
  have hwf2 : ∀ kv ∈ m1, ∀ seg ∈ (splitSlash kv.1).dropLast,
      seg ≠ "." ∧ ∀ ch ∈ seg.data, ch ≠ '/' := by
    intro kv hkv seg hseg
    refine ⟨hwf kv hkv seg hseg, ?_⟩
    exact splitSlash_seg_no_slash kv.1 seg
      ((List.dropLast_sublist (splitSlash kv.1)).subset hseg)
  have htree : build_file_tree m1 =
      (sort_strings (m1.map Prod.fst)).foldl (tree_step m1) [(".", [])] := rfl
  have hsortmem : ∀ p, p ∈ sort_strings (m1.map Prod.fst) ↔
      p ∈ m1.map Prod.fst :=
    fun p => (sort_strings_perm (m1.map Prod.fst)).mem_iff
  have hsortnd : (sort_strings (m1.map Prod.fst)).Nodup :=
    ((sort_strings_perm (m1.map Prod.fst)).nodup_iff).mpr hnd
  have hwfs : ∀ p ∈ sort_strings (m1.map Prod.fst),
      ∀ seg ∈ (splitSlash p).dropLast,
      seg ≠ "." ∧ ∀ ch ∈ seg.data, ch ≠ '/' := by
    intro p hp
    rcases List.mem_map.mp ((hsortmem p).mp hp) with ⟨kv, hkv, hkvp⟩
    have hh := hwf2 kv hkv
    rw [hkvp] at hh
    exact hh
  have hzero0 : ∀ p ∈ sort_strings (m1.map Prod.fst), ∀ node : FileNode,
      node.path = p → occurrences [(".", [])] (Child.file node) = 0 :=
    fun p _ node _ => rfl
  obtain ⟨t1, _, _, _, t5⟩ := tree_fold_spec m1 hpaths
    (sort_strings (m1.map Prod.fst)) [(".", [])] folders_inv_init hwfs
    hsortnd hzero0
  have hinvtree : folders_inv (build_file_tree m1) := by
    rw [htree]
    exact t1
  have hstepeq : ∀ a b, tree_step m1 a b = tree_step m2 a b := by
    intro a b
    unfold tree_step
    rw [lookup_perm hperm hnd b]
  have hsorteq : sort_strings (List.map (fun kv : String × FileNode => kv.1) m1) =
      sort_strings (List.map (fun kv : String × FileNode => kv.1) m2) :=
    sort_strings_eq_of_perm (hperm.map (fun kv => kv.1))
  have heq : build_file_tree m1 = build_file_tree m2 := by
    unfold build_file_tree
    rw [hsorteq]
    exact foldl_congr_fun (tree_step m1) (tree_step m2) hstepeq _ _
  refine ⟨heq, hinvtree.1, fun k hk hkdot => hinvtree.2.2.1 k hk hkdot, ?_⟩
  intro p node hlp
  have hpm : p ∈ m1.map Prod.fst :=
    List.mem_map.mpr ⟨(p, node), mem_of_lookup_eq_some hlp, rfl⟩
  have hps : p ∈ sort_strings (m1.map Prod.fst) := (hsortmem p).mpr hpm
  obtain ⟨o1, o2, o3⟩ := t5 p hps node hlp
  have hsegwf : ∀ seg ∈ (splitSlash p).dropLast,
      seg ≠ "." ∧ ∀ ch ∈ seg.data, ch ≠ '/' := hwfs p hps
  refine ⟨by rw [htree]; exact o1, by rw [htree]; exact o2, ?_,
    walk_steps_link ((splitSlash p).dropLast) ".",
    walk_steps_getLastD ((splitSlash p).dropLast) "."⟩
  intro pr hpr
  have hpr2 : pr ∈ walk_steps "." ((splitSlash p).dropLast) := hpr
  have hpp := walk_steps_parent ((splitSlash p).dropLast) "." hsegwf pr hpr2
  have hkey : pr.2 ∈ (build_file_tree m1).map Prod.fst := by
    rw [htree]
    exact o3 pr hpr
  have hc3 := hinvtree.2.2.1 pr.2 hkey hpp.2
  rw [hpp.1] at hc3
  exact hc3.2

/-- C8 instantiated at the concrete four-file map and a permuted copy of
it: every hypothesis holds there and the theorem applies. -/
theorem c8_witness :
    (example_files.Perm example_files.reverse ∧
     (example_files.map Prod.fst).Nodup ∧
     (∀ kv ∈ example_files, kv.2.path = kv.1) ∧
     (∀ kv ∈ example_files, ∀ seg ∈ (splitSlash kv.1).dropLast, seg ≠ ".")) ∧
    (build_file_tree example_files = build_file_tree example_files.reverse ∧
     ((build_file_tree example_files).map Prod.fst).Nodup ∧
     (∀ k ∈ (build_file_tree example_files).map Prod.fst, k ≠ "." →
       occurrences (build_file_tree example_files) (Child.folderRef k) = 1 ∧
       Child.folderRef k ∈
         children_at (build_file_tree example_files) (folder_parent k)) ∧
     (∀ p node, List.lookup p example_files = some node →
       occurrences (build_file_tree example_files) (Child.file node) = 1 ∧
       Child.file node ∈ children_at (build_file_tree example_files) (dir_key p) ∧
       (∀ pr ∈ ancestor_steps p,
         Child.folderRef pr.2 ∈ children_at (build_file_tree example_files) pr.1) ∧
       (ancestor_steps p).map Prod.fst =
         ("." :: (ancestor_steps p).map Prod.snd).dropLast ∧
       ((ancestor_steps p).map Prod.snd).getLastD "." = dir_key p)) :=
  ⟨⟨(List.reverse_perm example_files).symm, by decide, by decide, by decide⟩,
   c8_file_tree example_files example_files.reverse
     (List.reverse_perm example_files).symm (by decide) (by decide) (by decide)⟩

/-- C5 instantiated at the concrete four-file map, probing the helper
file: the hypotheses hold there and the theorem applies. -/
theorem c5_witness :
    ((∀ q : String, q ∈ example_files.map Prod.fst ↔
        q ∈ example_files.map Prod.fst) ∧
     "utils/h.py" ∈ example_files.map Prod.fst) ∧
    ("utils/h.py" ∈ (analyze_dependencies example_files
          (build_dependency_graph example_files)
          (example_files.map Prod.fst) []).isolated_files ↔
      (lookupD (build_dependency_graph example_files) "utils/h.py" = [] ∧
       imported_by_count (build_dependency_graph example_files)
         "utils/h.py" = 0)) :=
  ⟨⟨fun q => Iff.rfl, by decide⟩,
   c5_isolated_iff example_files (example_files.map Prod.fst) []
     (fun q => Iff.rfl) "utils/h.py" (by decide)⟩
